import Mathlib

/-!
# Verification of the character-level HMM spell corrector

This file gives a shallow embedding of `spell_corrector.py` and proves the
frozen claims about it.

Modelling conventions:

* Log-probabilities.  The program stores `math.log(count / total)` (a float)
  or `float("-inf")`.  Since `log` is strictly monotone on the positive
  reals and the program only ever adds and compares these values, we
  represent the value `log (c / t)` by `some (c, t) : Option (ℕ × ℕ+)` and
  `-inf` by `none`.  Addition of logs becomes multiplication of the
  fractions (`lpAdd`), and comparison of logs becomes cross-multiplied
  comparison of the fractions (`lpLt`, `lpLe`); both are exact.  In
  particular `0.0 = log (3/3)` is represented by `some (3, 3)`.
* Python `dict` / `Counter` objects are represented by association lists in
  insertion order; `defaultdict` auto-vivification on indexing (which
  mutates the dictionary) is modelled explicitly by `indexT`, and the
  methods that perform such reads return the (possibly grown) model.
* Python strings are Lean `String`s; `str.lower`, `str.upper`,
  `str.strip`, `str.capitalize`, `str.isupper` and `str.split()` are
  modelled character-wise for the ASCII range via `Char.toLower` /
  `Char.toUpper` (the program's own data is ASCII).  Python's
  lexicographic string comparison (used by `sorted`) is `strLe`, by code
  point.
* States and observations are the one-character strings produced by
  iterating over a Python string, plus the sentinel `END_STATE`.
-/

/-- Representation of a float log-probability: `none` is `-inf`,
`some (c, t)` is `log (c / t)` for a count `c` and positive total `t`. -/
abbrev LogProb := Option (ℕ × ℕ+)

/-- Addition of log-probabilities: `log (a/b) + log (c/d) = log (ac/bd)`,
and `-inf` absorbs (`-inf + x = x + -inf = -inf`), as for IEEE floats. -/
def lpAdd : LogProb → LogProb → LogProb
  | some x, some y => some (x.1 * y.1, x.2 * y.2)
  | _, _ => none

/-- Strict comparison of log-probabilities: `-inf < log q` for every finite
`log q`, `¬ (-inf < -inf)`, and `log (a/b) < log (c/d) ↔ a·d < c·b` by
monotonicity of `log` (denominators are positive). -/
def lpLt : LogProb → LogProb → Prop
  | none, none => False
  | none, some _ => True
  | some _, none => False
  | some x, some y => x.1 * (y.2 : ℕ) < y.1 * (x.2 : ℕ)

/-- Non-strict comparison of log-probabilities. -/
def lpLe : LogProb → LogProb → Prop
  | none, _ => True
  | some _, none => False
  | some x, some y => x.1 * (y.2 : ℕ) ≤ y.1 * (x.2 : ℕ)

instance : DecidableRel lpLt := fun x y =>
  match x, y with
  | none, none => isFalse (fun h => h)
  | none, some _ => isTrue trivial
  | some _, none => isFalse (fun h => h)
  | some x, some y =>
    inferInstanceAs (Decidable (x.1 * (y.2 : ℕ) < y.1 * (x.2 : ℕ)))

instance : DecidableRel lpLe := fun x y =>
  match x, y with
  | none, _ => isTrue trivial
  | some _, none => isFalse (fun h => h)
  | some x, some y =>
    inferInstanceAs (Decidable (x.1 * (y.2 : ℕ) ≤ y.1 * (x.2 : ℕ)))

theorem lpLt_none_right (x : LogProb) : ¬ lpLt x none := by
  cases x <;> simp [lpLt]

theorem lpLe_total (x y : LogProb) : lpLe x y ∨ lpLe y x := by
  cases x <;> cases y <;> simp [lpLe] <;> omega

theorem lpLe_trans {x y z : LogProb} (h1 : lpLe x y) (h2 : lpLe y z) :
    lpLe x z := by
  rcases x with _ | ⟨a, b⟩ <;> rcases y with _ | ⟨c, d⟩ <;>
    rcases z with _ | ⟨e, f⟩ <;> simp [lpLe] at h1 h2 ⊢
  have hb := b.2
  have hd := d.2
  have hf := f.2
  have g1 : a * (d : ℕ) * (f : ℕ) ≤ c * (b : ℕ) * (f : ℕ) :=
    Nat.mul_le_mul_right _ h1
  have g2 : c * (f : ℕ) * (b : ℕ) ≤ e * (d : ℕ) * (b : ℕ) :=
    Nat.mul_le_mul_right _ h2
  have g3 : a * (f : ℕ) * (d : ℕ) ≤ e * (b : ℕ) * (d : ℕ) := by
    calc a * (f : ℕ) * (d : ℕ) = a * (d : ℕ) * (f : ℕ) := by ring
    _ ≤ c * (b : ℕ) * (f : ℕ) := g1
    _ = c * (f : ℕ) * (b : ℕ) := by ring
    _ ≤ e * (d : ℕ) * (b : ℕ) := g2
    _ = e * (b : ℕ) * (d : ℕ) := by ring
  exact Nat.le_of_mul_le_mul_right g3 hd

theorem not_lpLt_self (x : LogProb) : ¬ lpLt x x := by
  cases x <;> simp [lpLt]

theorem lpAdd_none_left (y : LogProb) : lpAdd none y = none := by
  cases y <;> rfl

theorem lpAdd_none_right (x : LogProb) : lpAdd x none = none := by
  cases x <;> rfl

theorem lpAdd_eq_none_iff (x y : LogProb) :
    lpAdd x y = none ↔ x = none ∨ y = none := by
  cases x <;> cases y <;> simp [lpAdd]

/-! ## Association lists: the model of Python `dict` / `Counter` -/

/-- Lookup in an association list (Python `d[k]` / `k in d` for a `dict`
with string keys; keys are unique by construction). -/
def alookup {β : Type} : List (String × β) → String → Option β
  | [], _ => none
  | (k, v) :: rest, q => if q = k then some v else alookup rest q

/-- A Python `Counter` with string keys: entries in insertion order. -/
abbrev Counter := List (String × Nat)

/-- A `defaultdict(Counter)`: a two-level count table. -/
abbrev Table := List (String × Counter)

/-- A finalized one-level log-probability dictionary. -/
abbrev LogCounter := List (String × LogProb)

/-- A finalized two-level log-probability dictionary. -/
abbrev LogTable := List (String × LogCounter)

/-- Python `counter.get(k, 0)` (also the value of `counter[k]` for reads,
since a `Counter` defaults to `0`). -/
def getD0 (c : Counter) (k : String) : Nat := (alookup c k).getD 0

/-- Python `table.get(k, Counter())` semantics for reads through the
two-level count tables (missing outer key means the empty counter). -/
def getCounter (t : Table) (k : String) : Counter := (alookup t k).getD []

/-- Python `counter[k] += 1`: bump an entry, appending a fresh key at the
end (dict insertion order). -/
def bumpC : Counter → String → Counter
  | [], k => [(k, 1)]
  | (k0, v) :: rest, k =>
    if k = k0 then (k0, v + 1) :: rest else (k0, v) :: bumpC rest k

/-- Python `table[a][b] += 1` on a `defaultdict(Counter)`: auto-creates the
outer entry if missing, then bumps the inner counter. -/
def bumpT : Table → String → String → Table
  | [], a, b => [(a, [(b, 1)])]
  | (k0, c) :: rest, a, b =>
    if a = k0 then (k0, bumpC c b) :: rest else (k0, c) :: bumpT rest a b

/-- Python `table[k]` on a `defaultdict(Counter)` in read position: returns
the counter, but also inserts an empty counter when the key is missing
(auto-vivification).  The second component is the possibly-grown table. -/
def indexT : Table → String → Counter × Table
  | [], k => ([], [(k, [])])
  | (k0, c) :: rest, k =>
    if k = k0 then (c, (k0, c) :: rest)
    else
      let r := indexT rest k
      (r.1, (k0, c) :: r.2)

/-- Python `set.add`-style insertion into a set represented as a
duplicate-free list in insertion order. -/
def insertNew (l : List String) (x : String) : List String :=
  if x ∈ l then l else l ++ [x]

/-- Python `set.update(iterable)`. -/
def insertAll (l : List String) (xs : List String) : List String :=
  xs.foldl insertNew l

/-! ## Python string primitives (ASCII model) -/

/-- Python `str.strip()`: drop whitespace from both ends. -/
def pyStrip (s : String) : String :=
  String.mk (((s.data.dropWhile Char.isWhitespace).reverse.dropWhile
    Char.isWhitespace).reverse)

/-- Python `str.lower()` (ASCII model: `Char.toLower` character-wise). -/
def pyLower (s : String) : String := String.mk (s.data.map Char.toLower)

/-- Python `str.upper()` (ASCII model). -/
def pyUpper (s : String) : String := String.mk (s.data.map Char.toUpper)

/-- Python `str.capitalize()` (ASCII model): first character upper-cased,
all remaining characters lower-cased; `""` maps to `""`. -/
def pyCapitalize (s : String) : String :=
  match s.data with
  | [] => s
  | c :: rest => String.mk (Char.toUpper c :: rest.map Char.toLower)

/-- Cased character in the ASCII model (Python `str.isupper` only looks at
cased characters). -/
def isCased (c : Char) : Bool := c.isUpper || c.isLower

/-- Python `str.isupper()`: at least one cased character, and no cased
character is lowercase. -/
def pyIsUpper (s : String) : Bool :=
  s.data.any isCased && s.data.all (fun c => ! c.isLower)

/-- Python `word[0].isupper()` on a possibly-empty word (`false` on empty,
though the program only asks this of non-empty words). -/
def firstIsUpper (s : String) : Bool :=
  match s.data with
  | [] => false
  | c :: _ => c.isUpper

/-- Helper for `pySplitWs`: scan the characters, accumulating the current
token in reverse; whitespace runs separate tokens and produce no empty
tokens, matching Python `str.split()` with no argument. -/
def wordsAux : List Char → List Char → List String
  | [], acc => if acc.isEmpty then [] else [String.mk acc.reverse]
  | c :: rest, acc =>
    if c.isWhitespace then
      if acc.isEmpty then wordsAux rest []
      else String.mk acc.reverse :: wordsAux rest []
    else wordsAux rest (c :: acc)

/-- Python `str.split()`: split on whitespace runs, discarding empties. -/
def pySplitWs (s : String) : List String := wordsAux s.data []

/-- Python `"".join(list)`. -/
def pyJoin (l : List String) : String := l.foldl (fun a b => a ++ b) ""

/-- Python `" ".join(list)`. -/
def pyJoinSpace : List String → String
  | [] => ""
  | w :: ws => ws.foldl (fun acc x => acc ++ " " ++ x) w

/-- The characters of a Python string, as the one-character strings that
iterating over it yields. -/
def pyChars (s : String) : List String := s.data.map (fun c => String.singleton c)

/-- Lexicographic comparison of character lists by code point, the order
Python uses to compare strings. -/
def charsLe : List Char → List Char → Bool
  | [], _ => true
  | _ :: _, [] => false
  | a :: as, b :: bs =>
    if a.toNat < b.toNat then true
    else if b.toNat < a.toNat then false
    else charsLe as bs

/-- Python string `<=`, by code points. -/
def strLe (a b : String) : Prop := charsLe a.data b.data = true

instance : DecidableRel strLe := fun a b =>
  inferInstanceAs (Decidable (charsLe a.data b.data = true))

theorem charsLe_total : ∀ as bs : List Char, charsLe as bs ∨ charsLe bs as
  | [], _ => by left; rfl
  | _ :: _, [] => by right; rfl
  | a :: as, b :: bs => by
    rcases Nat.lt_trichotomy a.toNat b.toNat with h | h | h
    · left; simp [charsLe, h]
    · rcases charsLe_total as bs with ih | ih
      · left; simp [charsLe, h, ih]
      · right; simp [charsLe, h.symm, ih]
    · right; simp [charsLe, h]

theorem charsLe_trans : ∀ as bs cs : List Char,
    charsLe as bs → charsLe bs cs → charsLe as cs
  | [], _, _ => by intro _ _; rfl
  | a :: as, [], _ => by intro h; exact absurd h (by simp [charsLe])
  | a :: as, b :: bs, [] => by intro _ h; exact absurd h (by simp [charsLe])
  | a :: as, b :: bs, c :: cs => by
    intro h1 h2
    simp only [charsLe] at h1 h2 ⊢
    by_cases hba : b.toNat < a.toNat
    · rw [if_neg (by omega), if_pos hba] at h1
      exact absurd h1 (by simp)
    by_cases hcb : c.toNat < b.toNat
    · rw [if_neg (by omega), if_pos hcb] at h2
      exact absurd h2 (by simp)
    by_cases hac : a.toNat < c.toNat
    · rw [if_pos hac]
    rw [if_neg hac, if_neg (by omega)]
    rw [if_neg (by omega), if_neg (by omega)] at h1
    rw [if_neg (by omega), if_neg (by omega)] at h2
    exact charsLe_trans as bs cs h1 h2

theorem char_toNat_inj {a b : Char} (h : a.toNat = b.toNat) : a = b := by
  apply Char.ext
  exact UInt32.toNat.inj h

theorem charsLe_antisymm : ∀ as bs : List Char,
    charsLe as bs → charsLe bs as → as = bs
  | [], [] => by intro _ _; rfl
  | [], _ :: _ => by intro _ h; exact absurd h (by simp [charsLe])
  | _ :: _, [] => by intro h _; exact absurd h (by simp [charsLe])
  | a :: as, b :: bs => by
    intro h1 h2
    by_cases hab : a.toNat < b.toNat <;> by_cases hba : b.toNat < a.toNat <;>
      simp [charsLe, hab, hba] at h1 h2 ⊢
    · omega
    · exact ⟨char_toNat_inj (by omega), charsLe_antisymm as bs h1 h2⟩

instance : IsTotal String strLe where
  total a b := charsLe_total a.data b.data

instance : IsTrans String strLe where
  trans a b c h1 h2 := charsLe_trans a.data b.data c.data h1 h2

instance : IsAntisymm String strLe where
  antisymm a b h1 h2 := by
    cases a
    cases b
    exact congrArg String.mk (charsLe_antisymm _ _ h1 h2)

/-- The sentinel terminal state `END_STATE = "<END>"`. -/
def END_STATE : String := "<END>"

/-! ## The model (`SpellCheckerHMM.__init__`) -/

/-- The state of a `SpellCheckerHMM` object: the alphabet, the raw count
tables and the finalized log-probability tables. -/
structure SpellCheckerHMM where
  states : List String
  state_set : List String
  start_counts : Counter
  start_total : Nat
  transition_counts : Table
  transition_totals : Counter
  emission_counts : Table
  emission_totals : Counter
  start_log_probs : LogCounter
  transition_log_probs : LogTable
  emission_log_probs : LogTable
  deriving DecidableEq, Repr

namespace SpellCheckerHMM

/-- A freshly constructed model (`SpellCheckerHMM.__init__`). -/
def empty : SpellCheckerHMM :=
  ⟨[], [], [], 0, [], [], [], [], [], [], []⟩

/-- The pure count state touched by the training loop. -/
structure Counts where
  start_counts : Counter
  start_total : Nat
  transition_counts : Table
  transition_totals : Counter
  emission_counts : Table
  emission_totals : Counter
  deriving DecidableEq, Repr

/-- Project the count fields out of a model. -/
def countsOf (m : SpellCheckerHMM) : Counts :=
  ⟨m.start_counts, m.start_total, m.transition_counts, m.transition_totals,
   m.emission_counts, m.emission_totals⟩

/-- Write the count fields back into a model. -/
def withCounts (m : SpellCheckerHMM) (k : Counts) : SpellCheckerHMM :=
  { m with
    start_counts := k.start_counts
    start_total := k.start_total
    transition_counts := k.transition_counts
    transition_totals := k.transition_totals
    emission_counts := k.emission_counts
    emission_totals := k.emission_totals }

/-- Recording of one transition (source lines 60-61): bump the count from
`pr.1` to `pr.2` and the total for `pr.1`. -/
def transBump (kk : Counts) (pr : String × String) : Counts :=
  { kk with
    transition_counts := bumpT kk.transition_counts pr.1 pr.2
    transition_totals := bumpC kk.transition_totals pr.1 }

/-- Recording of one emission (source lines 72-73). -/
def emisBump (kk : Counts) (pr : String × String) : Counts :=
  { kk with
    emission_counts := bumpT kk.emission_counts pr.1 pr.2
    emission_totals := bumpC kk.emission_totals pr.1 }

/-- One iteration of the training loop acting on the count tables, after
the pair has been stripped and lower-cased (`train`, lines 45-73): skip if
either string is empty, otherwise record the start count of the first
letter, one transition per adjacent letter pair, a closing transition from
the last letter to `END_STATE`, and one emission per position of `correct`
that is also a position of `typed` (the `zip` truncates exactly where the
source's `idx >= len(typed)` guard skips). -/
def stepCountsProc (K : Counts) (correct typed : String) : Counts :=
  if correct.data.isEmpty || typed.data.isEmpty then K
  else
    match pyChars correct with
    | [] => K
    | L0 :: Ls =>
      let letters := L0 :: Ls
      let K1 := { K with
        start_counts := bumpC K.start_counts L0
        start_total := K.start_total + 1 }
      let K2 := (letters.zip Ls).foldl transBump K1
      let lastL := letters.getLastD L0
      let K3 := transBump K2 (lastL, END_STATE)
      (letters.zip (pyChars typed)).foldl emisBump K3

/-- One iteration of the training loop acting on the count tables, on a
raw training pair (strips and lower-cases both strings first). -/
def stepCounts (K : Counts) (p : String × String) : Counts :=
  stepCountsProc K (pyLower (pyStrip p.1)) (pyLower (pyStrip p.2))

/-- One iteration of the training loop acting on `state_set`
(`self.state_set.update(correct)`), after processing the pair. -/
def stepSetProc (S : List String) (correct typed : String) : List String :=
  if correct.data.isEmpty || typed.data.isEmpty then S
  else insertAll S (pyChars correct)

/-- One iteration of the training loop acting on `state_set`, on a raw
training pair. -/
def stepSet (S : List String) (p : String × String) : List String :=
  stepSetProc S (pyLower (pyStrip p.1)) (pyLower (pyStrip p.2))

/-- Sorting of the state alphabet: `sorted(self.state_set)` in Python's
lexicographic string order. -/
def sortStrings (l : List String) : List String :=
  List.insertionSort strLe l

/-- Finalized transition or emission log-probability table
(`_finalize_probabilities`, lines 96-114): for each state in alphabet
order whose total is non-zero, the recorded counts (in insertion order)
mapped to `log (count / total)`; a state contributes an entry only if at
least one recorded count is non-zero. -/
def buildLogTable (states : List String) (counts : Table) (totals : Counter) :
    LogTable :=
  states.filterMap (fun s =>
    let total := getD0 totals s
    if h : total = 0 then none
    else
      let es := (getCounter counts s).filterMap (fun pr =>
        if pr.2 = 0 then none
        else some (pr.1,
          (some (pr.2, ⟨total, Nat.pos_of_ne_zero h⟩) : LogProb)))
      if es.isEmpty then none else some (s, es))

/-- The finalized start log-probabilities (`_finalize_probabilities`,
lines 88-94): an entry for every state, `-inf` when the total or count is
zero. -/
def buildStartLogProbs (states : List String) (counts : Counter)
    (total : Nat) : LogCounter :=
  states.map (fun s =>
    let c := getD0 counts s
    (s, if h : total = 0 ∨ c = 0 then (none : LogProb)
        else some (c, ⟨total, Nat.pos_of_ne_zero (fun ht => h (Or.inl ht))⟩)))

/-- `_finalize_probabilities`: reset the three log tables, then rebuild
them from the counts (nothing further if the alphabet is empty); resetting
followed by a conditional rebuild is written as one conditional update. -/
def finalize (m : SpellCheckerHMM) : SpellCheckerHMM :=
  if m.states.isEmpty then
    { m with
      start_log_probs := ([] : LogCounter)
      transition_log_probs := ([] : LogTable)
      emission_log_probs := ([] : LogTable) }
  else
    { m with
      start_log_probs :=
        buildStartLogProbs m.states m.start_counts m.start_total
      transition_log_probs :=
        buildLogTable m.states m.transition_counts m.transition_totals
      emission_log_probs :=
        buildLogTable m.states m.emission_counts m.emission_totals }

/-- `train(pairs)`: run the counting loop over all pairs (the loop body
splits into independent updates of the count tables and of `state_set`),
discard `"\n"` from `state_set`, recompute the sorted alphabet, and
finalize the probability tables. -/
def train (m : SpellCheckerHMM) (pairs : List (String × String)) :
    SpellCheckerHMM :=
  let K := pairs.foldl stepCounts (countsOf m)
  let S := (pairs.foldl stepSet m.state_set).filter (fun s => s ≠ "\n")
  finalize { (withCounts m K) with state_set := S, states := sortStrings S }

/-! ## Probability lookups (`_log_start_prob` and friends) -/

/-- Recomputation of a log-probability from a count and total, shared by
the fallback branches of the three probability readers: `-inf` when the
total or the count is zero, else `log (count / total)` (the source also
guards `prob > 0`, which always holds here since `count > 0`). -/
def logOfCounts (count total : Nat) : LogProb :=
  if h : total = 0 ∨ count = 0 then none
  else
    let q : ℕ × ℕ+ := (count, ⟨total, Nat.pos_of_ne_zero (fun ht => h (Or.inl ht))⟩)
    if 0 < q.1 then some q else none

/-- `_log_start_prob` (lines 116-125): use the finalized table when it is
non-empty, otherwise recompute from the raw counts.  Pure: only `dict.get`
reads are involved. -/
def log_start_prob (m : SpellCheckerHMM) (state : String) : LogProb :=
  if ¬ m.start_log_probs.isEmpty then
    (alookup m.start_log_probs state).getD none
  else
    logOfCounts (getD0 m.start_counts state) m.start_total

/-- `_log_transition_prob` (lines 127-137): return the cached value when
the cached inner dictionary is non-empty and has the key; otherwise
recompute from the counts.  The recomputation indexes
`transition_counts[prev_state]`, which auto-vivifies a missing outer key,
so the (possibly grown) model is returned alongside the value. -/
def log_transition_prob (m : SpellCheckerHMM) (prev_state next_state : String) :
    LogProb × SpellCheckerHMM :=
  match (alookup m.transition_log_probs prev_state).bind (fun cc =>
      if cc.isEmpty then none else alookup cc next_state) with
  | some v => (v, m)
  | none =>
    let total := getD0 m.transition_totals prev_state
    let r := indexT m.transition_counts prev_state
    let count := getD0 r.1 next_state
    (logOfCounts count total, { m with transition_counts := r.2 })

/-- `_log_emission_prob` (lines 139-149): analogous to
`log_transition_prob`, indexing `emission_counts[state]`. -/
def log_emission_prob (m : SpellCheckerHMM) (state observation : String) :
    LogProb × SpellCheckerHMM :=
  match (alookup m.emission_log_probs state).bind (fun cc =>
      if cc.isEmpty then none else alookup cc observation) with
  | some v => (v, m)
  | none =>
    let r := indexT m.emission_counts state
    let count := getD0 r.1 observation
    let total := getD0 m.emission_totals state
    (logOfCounts count total, { m with emission_counts := r.2 })

/-! ## Distribution inspectors -/

/-- Sorting key order used by `sorted(items, key=lambda kv: kv[1],
reverse=True)`: by log-probability, most likely first; Python's sort is
stable, which `List.insertionSort` with a non-strict relation matches. -/
def distRel (p q : String × LogProb) : Prop := lpLe q.2 p.2

instance : DecidableRel distRel := fun p q =>
  inferInstanceAs (Decidable (lpLe q.2 p.2))

instance : IsTotal (String × LogProb) distRel where
  total p q := by
    unfold distRel
    exact lpLe_total q.2 p.2

instance : IsTrans (String × LogProb) distRel where
  trans _ _ _ h1 h2 := lpLe_trans h2 h1

/-- `transition_log_distribution(state)` (lines 151-154): the cached pairs
for `state` (empty when absent), sorted by log-probability descending.
Pure: only `dict.get` reads. -/
def transition_log_distribution (m : SpellCheckerHMM) (state : String) :
    List (String × LogProb) :=
  List.insertionSort distRel ((alookup m.transition_log_probs state).getD [])

/-- `emission_log_distribution(state)` (lines 156-159). -/
def emission_log_distribution (m : SpellCheckerHMM) (state : String) :
    List (String × LogProb) :=
  List.insertionSort distRel ((alookup m.emission_log_probs state).getD [])

/-! ## The Viterbi decoder (`decode_word`, lines 161-221) -/

/-- One column of the Viterbi score table (`viterbi[index]`): a dictionary
from state to score, with every state present. -/
abbrev Col := List (String × LogProb)

/-- The backpointer paths (`path` / `new_path`): a dictionary from state to
the best partial state sequence ending in that state. -/
abbrev Path := List (String × List String)

/-- The observation sequence: the characters of `word.lower()` as
one-character strings. -/
def obsOf (word : String) : List String := pyChars (pyLower word)

/-- Initialization of the Viterbi recursion (lines 171-175): score each
state by start plus emission of the first observation, and start its path
as the singleton; threads the model through the emission reads. -/
def initStep (first_obs : String) (acc : Col × Path × SpellCheckerHMM)
    (s : String) : Col × Path × SpellCheckerHMM :=
  let ev := log_emission_prob acc.2.2 s first_obs
  (acc.1 ++ [(s, lpAdd (log_start_prob acc.2.2 s) ev.1)],
   acc.2.1 ++ [(s, [s])], ev.2)

/-- Fold of `initStep` over the alphabet. -/
def viterbiInit (m : SpellCheckerHMM) (first_obs : String) :
    Col × Path × SpellCheckerHMM :=
  m.states.foldl (initStep first_obs) ([], [], m)

/-- The inner argmax over previous states (lines 182-194): skip previous
states absent from `path` or from the previous column; a candidate wins
only by a strictly greater score, so the first maximum in state order is
kept. -/
def prevStep (prevCol : Col) (path : Path) (curr : String)
    (acc : Option String × LogProb × SpellCheckerHMM) (prev : String) :
    Option String × LogProb × SpellCheckerHMM :=
  if (alookup path prev).isNone then acc
  else
    match alookup prevCol prev with
    | none => acc
    | some prev_score =>
      let tv := log_transition_prob acc.2.2 prev curr
      let score := lpAdd prev_score tv.1
      if lpLt acc.2.1 score then (some prev, score, tv.2)
      else (acc.1, acc.2.1, tv.2)

/-- Fold of `prevStep` over the alphabet. -/
def bestPrev (states : List String) (prevCol : Col) (path : Path)
    (curr : String) (m : SpellCheckerHMM) :
    Option String × LogProb × SpellCheckerHMM :=
  states.foldl (prevStep prevCol path curr) (none, none, m)

/-- One step of the Viterbi recursion (lines 177-200): build the next
column and the next path dictionary; a state with no viable predecessor
gets score `-inf` and no path entry. -/
def currStep (states : List String) (prevCol : Col) (path : Path)
    (obs_char : String) (acc2 : Col × Path × SpellCheckerHMM)
    (curr : String) : Col × Path × SpellCheckerHMM :=
  let ev := log_emission_prob acc2.2.2 curr obs_char
  let bp := bestPrev states prevCol path curr ev.2
  match bp.1 with
  | some p =>
    (acc2.1 ++ [(curr, lpAdd bp.2.1 ev.1)],
     acc2.2.1 ++ [(curr, ((alookup path p).getD []) ++ [curr])], bp.2.2)
  | none => (acc2.1 ++ [(curr, none)], acc2.2.1, bp.2.2)

/-- Fold of `currStep` over the alphabet: the previous column and path are
read, a fresh column and path are built. -/
def viterbiStep (states : List String) (acc : Col × Path × SpellCheckerHMM)
    (obs_char : String) : Col × Path × SpellCheckerHMM :=
  states.foldl (currStep states acc.1 acc.2.1 obs_char) ([], [], acc.2.2)

/-- The full Viterbi recursion over an observation sequence. -/
def viterbiRun (m : SpellCheckerHMM) (o0 : String) (orest : List String) :
    Col × Path × SpellCheckerHMM :=
  orest.foldl (viterbiStep m.states) (viterbiInit m o0)

/-- Termination (lines 202-211): pick the state maximizing last score plus
transition to `END_STATE`, first strict maximum in state order; states
missing from the last column are skipped. -/
def finalStep (col : Col)
    (acc : Option String × LogProb × SpellCheckerHMM) (s : String) :
    Option String × LogProb × SpellCheckerHMM :=
  match alookup col s with
  | none => acc
  | some state_score =>
    let tv := log_transition_prob acc.2.2 s END_STATE
    let total := lpAdd state_score tv.1
    if lpLt acc.2.1 total then (some s, total, tv.2)
    else (acc.1, acc.2.1, tv.2)

/-- Fold of `finalStep` over the alphabet. -/
def finalPick (states : List String) (col : Col) (m : SpellCheckerHMM) :
    Option String × LogProb × SpellCheckerHMM :=
  states.foldl (finalStep col) (none, none, m)

/-- Case restoration (lines 217-221): all-uppercase input uppercases the
decoded word; an uppercase first letter capitalizes it; otherwise the
decoded word is returned as-is. -/
def restoreCase (word decoded : String) : String :=
  if pyIsUpper word then pyUpper decoded
  else if firstIsUpper word then pyCapitalize decoded
  else decoded

/-- `decode_word(word)` (lines 161-221): identity on an empty word or an
empty alphabet; otherwise run Viterbi on the lower-cased word, fall back
to the input when no state has a finite final score, and restore case on
the decoded output.  Returns the (possibly auto-vivified) model as the
second component. -/
def decode_word (m : SpellCheckerHMM) (word : String) :
    String × SpellCheckerHMM :=
  if word.data.isEmpty || m.states.isEmpty then (word, m)
  else
    match obsOf word with
    | [] => (word, m)
    | o0 :: orest =>
      let r := viterbiRun m o0 orest
      let fp := finalPick m.states r.1 r.2.2
      match fp.1 with
      | none => (word, fp.2.2)
      | some s =>
        (restoreCase word (pyJoin ((alookup r.2.1 s).getD [])), fp.2.2)

/-- `decode_text(text)` (lines 223-226): split on whitespace, decode each
token in order (threading the model), and rejoin with single spaces. -/
def textStep (acc : List String × SpellCheckerHMM) (w : String) :
    List String × SpellCheckerHMM :=
  let d := decode_word acc.2 w
  (acc.1 ++ [d.1], d.2)

/-- `decode_text(text)` folds `textStep` over the whitespace-split tokens
and rejoins with single spaces. -/
def decode_text (m : SpellCheckerHMM) (text : String) :
    String × SpellCheckerHMM :=
  let r := (pySplitWs text).foldl textStep (([] : List String), m)
  (pyJoinSpace r.1, r.2)

/-! ## Read-equivalence: what decoding can and cannot change

Indexing a `defaultdict` inserts an empty counter for a missing key, so a
decode call can grow the raw count tables.  `ReadsEq m m'` says that `m'`
agrees with `m` on everything observable: every field except the two
two-level count tables is equal, and those agree under every lookup
(an appended empty counter is indistinguishable from an absent key). -/
def ReadsEq (m m' : SpellCheckerHMM) : Prop :=
  m'.states = m.states ∧ m'.state_set = m.state_set ∧
  m'.start_counts = m.start_counts ∧ m'.start_total = m.start_total ∧
  m'.transition_totals = m.transition_totals ∧
  m'.emission_totals = m.emission_totals ∧
  m'.start_log_probs = m.start_log_probs ∧
  m'.transition_log_probs = m.transition_log_probs ∧
  m'.emission_log_probs = m.emission_log_probs ∧
  (∀ a, getCounter m'.transition_counts a = getCounter m.transition_counts a) ∧
  (∀ a, getCounter m'.emission_counts a = getCounter m.emission_counts a)

theorem ReadsEq.refl (m : SpellCheckerHMM) : ReadsEq m m :=
  ⟨rfl, rfl, rfl, rfl, rfl, rfl, rfl, rfl, rfl, fun _ => rfl, fun _ => rfl⟩

theorem ReadsEq.trans {a b c : SpellCheckerHMM}
    (h1 : ReadsEq a b) (h2 : ReadsEq b c) : ReadsEq a c := by
  obtain ⟨e1, e2, e3, e4, e5, e6, e7, e8, e9, f1, f2⟩ := h1
  obtain ⟨g1, g2, g3, g4, g5, g6, g7, g8, g9, k1, k2⟩ := h2
  refine ⟨g1.trans e1, g2.trans e2, g3.trans e3, g4.trans e4, g5.trans e5,
    g6.trans e6, g7.trans e7, g8.trans e8, g9.trans e9, ?_, ?_⟩
  · intro a2
    exact (k1 a2).trans (f1 a2)
  · intro a2
    exact (k2 a2).trans (f2 a2)

theorem indexT_fst (t : Table) (k : String) :
    (indexT t k).1 = getCounter t k := by
  induction t with
  | nil => rfl
  | cons hd rest ih =>
    obtain ⟨k0, c⟩ := hd
    by_cases h : k = k0
    · simp [indexT, getCounter, alookup, h]
    · simp only [indexT, getCounter, alookup, if_neg h]
      exact ih

theorem getCounter_indexT (t : Table) (k a : String) :
    getCounter (indexT t k).2 a = getCounter t a := by
  induction t with
  | nil =>
    by_cases h : a = k <;> simp [indexT, getCounter, alookup, h]
  | cons hd rest ih =>
    obtain ⟨k0, c⟩ := hd
    by_cases h : k = k0
    · simp [indexT, h]
    · by_cases h2 : a = k0
      · simp [indexT, getCounter, alookup, if_neg h, h2]
      · simp only [indexT, getCounter, alookup, if_neg h, if_neg h2]
        exact ih

theorem log_emission_prob_reads (m : SpellCheckerHMM) (s o : String) :
    ReadsEq m (log_emission_prob m s o).2 := by
  unfold log_emission_prob
  cases (alookup m.emission_log_probs s).bind (fun cc =>
      if cc.isEmpty then none else alookup cc o) with
  | some v => exact ReadsEq.refl m
  | none =>
    refine ⟨rfl, rfl, rfl, rfl, rfl, rfl, rfl, rfl, rfl, fun _ => rfl, ?_⟩
    intro a
    exact getCounter_indexT m.emission_counts s a

theorem log_transition_prob_reads (m : SpellCheckerHMM) (a b : String) :
    ReadsEq m (log_transition_prob m a b).2 := by
  unfold log_transition_prob
  cases (alookup m.transition_log_probs a).bind (fun cc =>
      if cc.isEmpty then none else alookup cc b) with
  | some v => exact ReadsEq.refl m
  | none =>
    refine ⟨rfl, rfl, rfl, rfl, rfl, rfl, rfl, rfl, rfl, ?_, fun _ => rfl⟩
    intro x
    exact getCounter_indexT m.transition_counts a x

theorem log_start_prob_congr {m m' : SpellCheckerHMM}
    (h : ReadsEq m m') (s : String) :
    log_start_prob m' s = log_start_prob m s := by
  obtain ⟨_, _, e3, e4, _, _, e7, _, _, _, _⟩ := h
  unfold log_start_prob
  rw [e3, e4, e7]

theorem log_transition_prob_val_congr {m m' : SpellCheckerHMM}
    (h : ReadsEq m m') (a b : String) :
    (log_transition_prob m' a b).1 = (log_transition_prob m a b).1 := by
  obtain ⟨_, _, _, _, e5, _, _, e8, _, f1, _⟩ := h
  unfold log_transition_prob
  rw [e8]
  cases (alookup m.transition_log_probs a).bind (fun cc =>
      if cc.isEmpty then none else alookup cc b) with
  | some v => rfl
  | none =>
    simp only [e5, indexT_fst, f1]

theorem log_emission_prob_val_congr {m m' : SpellCheckerHMM}
    (h : ReadsEq m m') (s o : String) :
    (log_emission_prob m' s o).1 = (log_emission_prob m s o).1 := by
  obtain ⟨_, _, _, _, _, e6, _, _, e9, _, f2⟩ := h
  unfold log_emission_prob
  rw [e9]
  cases (alookup m.emission_log_probs s).bind (fun cc =>
      if cc.isEmpty then none else alookup cc o) with
  | some v => rfl
  | none =>
    simp only [e6, indexT_fst, f2]

/-- Read-preservation survives any fold whose step preserves reads of the
model component. -/
theorem readsEq_foldl {α β : Type} (proj : β → SpellCheckerHMM)
    (f : β → α → β) (hf : ∀ b x, ReadsEq (proj b) (proj (f b x))) :
    ∀ (l : List α) (b : β), ReadsEq (proj b) (proj (l.foldl f b))
  | [], b => ReadsEq.refl _
  | x :: l, b =>
    ReadsEq.trans (hf b x) (readsEq_foldl proj f hf l (f b x))

theorem initStep_reads (o : String) (acc : Col × Path × SpellCheckerHMM)
    (s : String) : ReadsEq acc.2.2 (initStep o acc s).2.2 :=
  log_emission_prob_reads acc.2.2 s o

theorem viterbiInit_reads (m : SpellCheckerHMM) (o : String) :
    ReadsEq m (viterbiInit m o).2.2 := by
  unfold viterbiInit
  exact readsEq_foldl
    (fun (acc : Col × Path × SpellCheckerHMM) => acc.2.2) (initStep o)
    (initStep_reads o) m.states ([], [], m)

theorem prevStep_reads (prevCol : Col) (path : Path) (curr : String)
    (acc : Option String × LogProb × SpellCheckerHMM) (prev : String) :
    ReadsEq acc.2.2 (prevStep prevCol path curr acc prev).2.2 := by
  unfold prevStep
  by_cases h1 : (alookup path prev).isNone
  · simp only [if_pos h1]
    exact ReadsEq.refl _
  · simp only [if_neg h1]
    cases alookup prevCol prev with
    | none => exact ReadsEq.refl _
    | some prev_score =>
      by_cases h2 : lpLt acc.2.1
          (lpAdd prev_score (log_transition_prob acc.2.2 prev curr).1)
      · simp only [if_pos h2]
        exact log_transition_prob_reads acc.2.2 prev curr
      · simp only [if_neg h2]
        exact log_transition_prob_reads acc.2.2 prev curr

theorem bestPrev_reads (states : List String) (prevCol : Col) (path : Path)
    (curr : String) (m : SpellCheckerHMM) :
    ReadsEq m (bestPrev states prevCol path curr m).2.2 := by
  unfold bestPrev
  exact readsEq_foldl
    (fun (acc : Option String × LogProb × SpellCheckerHMM) => acc.2.2)
    (prevStep prevCol path curr) (prevStep_reads prevCol path curr)
    states (none, none, m)

theorem currStep_reads (states : List String) (prevCol : Col) (path : Path)
    (o : String) (acc2 : Col × Path × SpellCheckerHMM) (curr : String) :
    ReadsEq acc2.2.2 (currStep states prevCol path o acc2 curr).2.2 := by
  unfold currStep
  have he := log_emission_prob_reads acc2.2.2 curr o
  have hb := bestPrev_reads states prevCol path curr
    (log_emission_prob acc2.2.2 curr o).2
  cases hm : (bestPrev states prevCol path curr
      (log_emission_prob acc2.2.2 curr o).2).1 with
  | some p =>
    simp only [hm]
    exact ReadsEq.trans he hb
  | none =>
    simp only [hm]
    exact ReadsEq.trans he hb

theorem viterbiStep_reads (states : List String)
    (acc : Col × Path × SpellCheckerHMM) (o : String) :
    ReadsEq acc.2.2 (viterbiStep states acc o).2.2 := by
  unfold viterbiStep
  exact readsEq_foldl
    (fun (a : Col × Path × SpellCheckerHMM) => a.2.2)
    (currStep states acc.1 acc.2.1 o) (currStep_reads states acc.1 acc.2.1 o)
    states ([], [], acc.2.2)

theorem viterbiRun_reads (m : SpellCheckerHMM) (o0 : String)
    (orest : List String) : ReadsEq m (viterbiRun m o0 orest).2.2 := by
  unfold viterbiRun
  refine ReadsEq.trans (viterbiInit_reads m o0) ?_
  exact readsEq_foldl
    (fun (acc : Col × Path × SpellCheckerHMM) => acc.2.2)
    (viterbiStep m.states) (viterbiStep_reads m.states) orest
    (viterbiInit m o0)

theorem finalStep_reads (col : Col)
    (acc : Option String × LogProb × SpellCheckerHMM) (s : String) :
    ReadsEq acc.2.2 (finalStep col acc s).2.2 := by
  unfold finalStep
  cases alookup col s with
  | none => exact ReadsEq.refl _
  | some state_score =>
    by_cases h2 : lpLt acc.2.1
        (lpAdd state_score (log_transition_prob acc.2.2 s END_STATE).1)
    · simp only [if_pos h2]
      exact log_transition_prob_reads acc.2.2 s END_STATE
    · simp only [if_neg h2]
      exact log_transition_prob_reads acc.2.2 s END_STATE

theorem finalPick_reads (states : List String) (col : Col)
    (m : SpellCheckerHMM) : ReadsEq m (finalPick states col m).2.2 := by
  unfold finalPick
  exact readsEq_foldl
    (fun (acc : Option String × LogProb × SpellCheckerHMM) => acc.2.2)
    (finalStep col) (finalStep_reads col) states (none, none, m)

theorem decode_word_reads (m : SpellCheckerHMM) (word : String) :
    ReadsEq m (decode_word m word).2 := by
  unfold decode_word
  by_cases h : word.data.isEmpty || m.states.isEmpty
  · simp only [if_pos h]
    exact ReadsEq.refl m
  · simp only [if_neg h]
    cases obsOf word with
    | nil => exact ReadsEq.refl m
    | cons o0 orest =>
      have h1 := viterbiRun_reads m o0 orest
      have h2 := finalPick_reads m.states (viterbiRun m o0 orest).1
        (viterbiRun m o0 orest).2.2
      cases hm : (finalPick m.states (viterbiRun m o0 orest).1
          (viterbiRun m o0 orest).2.2).1 with
      | none =>
        simp only [hm]
        exact ReadsEq.trans h1 h2
      | some s =>
        simp only [hm]
        exact ReadsEq.trans h1 h2

theorem textStep_reads (acc : List String × SpellCheckerHMM) (w : String) :
    ReadsEq acc.2 (textStep acc w).2 :=
  decode_word_reads acc.2 w

theorem decode_text_reads (m : SpellCheckerHMM) (text : String) :
    ReadsEq m (decode_text m text).2 := by
  unfold decode_text
  exact readsEq_foldl
    (fun (acc : List String × SpellCheckerHMM) => acc.2) textStep
    textStep_reads (pySplitWs text) ([], m)

/-! ## The fallback of `decode_word` (claim C4) -/

/-- The final score the termination step computes for state `s` on input
`word`: the last Viterbi column entry of `s` plus the log transition
probability from `s` to `END_STATE` (`-inf` when `s` is missing from the
column); the transition probability is read from the original model,
which is sound because decoding preserves all reads. -/
def viterbiFinalScore (m : SpellCheckerHMM) (word s : String) : LogProb :=
  match obsOf word with
  | [] => none
  | o0 :: orest =>
    match alookup (viterbiRun m o0 orest).1 s with
    | none => none
    | some sc => lpAdd sc (log_transition_prob m s END_STATE).1

theorem finalPick_fst_none {m0 : SpellCheckerHMM} (col : Col) :
    ∀ (states : List String) (acc : Option String × LogProb × SpellCheckerHMM),
    acc.1 = none → acc.2.1 = none → ReadsEq m0 acc.2.2 →
    (∀ s ∈ states,
      (match alookup col s with
       | none => (none : LogProb)
       | some sc => lpAdd sc (log_transition_prob m0 s END_STATE).1) = none) →
    (states.foldl (finalStep col) acc).1 = none := by
  intro states
  induction states with
  | nil =>
    intro acc h1 _ _ _
    simpa using h1
  | cons s rest ih =>
    intro acc h1 h2 h3 h4
    simp only [List.foldl_cons]
    have hs := h4 s (List.mem_cons_self s rest)
    have hrest : ∀ x ∈ rest,
        (match alookup col x with
         | none => (none : LogProb)
         | some sc => lpAdd sc (log_transition_prob m0 x END_STATE).1)
          = none :=
      fun x hx => h4 x (List.mem_cons_of_mem s hx)
    cases hc : alookup col s with
    | none =>
      have : finalStep col acc s = acc := by
        unfold finalStep
        rw [hc]
      rw [this]
      exact ih acc h1 h2 h3 hrest
    | some sc =>
      rw [hc] at hs
      have hval : (log_transition_prob acc.2.2 s END_STATE).1
          = (log_transition_prob m0 s END_STATE).1 :=
        log_transition_prob_val_congr h3 s END_STATE
      have htot : lpAdd sc (log_transition_prob acc.2.2 s END_STATE).1
          = none := by
        rw [hval]
        exact hs
      have hnotlt : ¬ lpLt acc.2.1
          (lpAdd sc (log_transition_prob acc.2.2 s END_STATE).1) := by
        rw [htot, h2]
        exact not_lpLt_self none
      have hstep : finalStep col acc s
          = (acc.1, acc.2.1, (log_transition_prob acc.2.2 s END_STATE).2) := by
        unfold finalStep
        rw [hc]
        simp only [if_neg hnotlt]
      rw [hstep]
      exact ih _ h1 h2
        (ReadsEq.trans h3 (log_transition_prob_reads acc.2.2 s END_STATE))
        hrest

theorem obsOf_eq_nil_iff (w : String) : obsOf w = [] ↔ w.data = [] := by
  unfold obsOf pyChars pyLower
  simp

/-- When no state has a finite final score, `decode_word` returns the
input unchanged. -/
theorem decode_word_fallback (m : SpellCheckerHMM) (w : String)
    (hw : w.data ≠ [])
    (h : ∀ s ∈ m.states, viterbiFinalScore m w s = none) :
    (decode_word m w).1 = w := by
  unfold decode_word
  by_cases hst : m.states.isEmpty
  · simp [hst]
  · have hguard : (w.data.isEmpty || m.states.isEmpty) = false := by
      simp only [Bool.or_eq_false_iff]
      constructor
      · simpa using hw
      · simpa using hst
    cases hobs : obsOf w with
    | nil => exact absurd ((obsOf_eq_nil_iff w).mp hobs) hw
    | cons o0 orest =>
      have hfp : (finalPick m.states (viterbiRun m o0 orest).1
          (viterbiRun m o0 orest).2.2).1 = none := by
        unfold finalPick
        refine finalPick_fst_none (viterbiRun m o0 orest).1 m.states
          (none, none, (viterbiRun m o0 orest).2.2) rfl rfl
          (viterbiRun_reads m o0 orest) ?_
        intro s hs
        have := h s hs
        unfold viterbiFinalScore at this
        rw [hobs] at this
        exact this
      simp only [hguard, Bool.false_eq_true, if_false, hobs, hfp]

/-! ## Counting lemmas (claims C5 and C9) -/

theorem getD0_bumpC (c : Counter) (k q : String) :
    getD0 (bumpC c k) q = getD0 c q + if q = k then 1 else 0 := by
  induction c with
  | nil =>
    by_cases h : q = k <;> simp [bumpC, getD0, alookup, h]
  | cons hd rest ih =>
    obtain ⟨k0, v⟩ := hd
    by_cases hk : k = k0
    · subst hk
      by_cases hq : q = k <;> simp [bumpC, getD0, alookup, hq]
    · by_cases hq : q = k0
      · subst hq
        have : ¬ q = k := fun h => hk h.symm
        simp [bumpC, getD0, alookup, if_neg hk, this]
      · simp only [bumpC, if_neg hk, getD0, alookup, if_neg hq]
        exact ih

theorem getD0_getCounter_bumpT (t : Table) (a b x y : String) :
    getD0 (getCounter (bumpT t a b) x) y
      = getD0 (getCounter t x) y + if x = a ∧ y = b then 1 else 0 := by
  induction t with
  | nil =>
    by_cases hx : x = a
    · subst hx
      by_cases hy : y = b <;>
        simp [bumpT, getCounter, getD0, alookup, hy]
    · simp [bumpT, getCounter, getD0, alookup, hx,
        fun h : x = a ∧ y = b => hx h.1]
  | cons hd rest ih =>
    obtain ⟨k0, c⟩ := hd
    by_cases ha : a = k0
    · subst ha
      by_cases hx : x = a
      · subst hx
        simp only [bumpT, if_pos rfl, getCounter, alookup, if_pos rfl,
          Option.getD_some, eq_self_iff_true, if_true, true_and]
        rw [getD0_bumpC]
      · have : ¬ (x = a ∧ y = b) := fun h => hx h.1
        simp [bumpT, getCounter, alookup, hx, this]
    · by_cases hx : x = k0
      · subst hx
        have hxa : ¬ x = a := fun h => ha h.symm
        have : ¬ (x = a ∧ y = b) := fun h => hxa h.1
        simp [bumpT, if_neg ha, getCounter, alookup, this]
      · simp only [bumpT, if_neg ha, getCounter, alookup, if_neg hx]
        exact ih

/-- The number of indices at which a list of pairs equals `(a, b)`:
`countPairs (l₁.zip l₂) a b` counts the positions `i` with `l₁[i] = a` and
`l₂[i] = b`. -/
def countPairs (l : List (String × String)) (a b : String) : Nat :=
  l.countP (fun pr => decide (pr.1 = a ∧ pr.2 = b))

theorem countPairs_nil (a b : String) : countPairs [] a b = 0 := rfl

theorem countPairs_cons (pr : String × String) (l : List (String × String))
    (a b : String) :
    countPairs (pr :: l) a b
      = countPairs l a b + if a = pr.1 ∧ b = pr.2 then 1 else 0 := by
  unfold countPairs
  rw [List.countP_cons]
  by_cases h : pr.1 = a ∧ pr.2 = b
  · have h2 : a = pr.1 ∧ b = pr.2 := ⟨h.1.symm, h.2.symm⟩
    rw [if_pos (decide_eq_true h), if_pos h2]
  · have h2 : ¬ (a = pr.1 ∧ b = pr.2) := fun hh => h ⟨hh.1.symm, hh.2.symm⟩
    rw [if_neg (fun hd => h (of_decide_eq_true hd)), if_neg h2]

theorem transFold_trans_counts (l : List (String × String)) (K : Counts)
    (a b : String) :
    getD0 (getCounter (l.foldl transBump K).transition_counts a) b
      = getD0 (getCounter K.transition_counts a) b + countPairs l a b := by
  induction l generalizing K with
  | nil =>
    rw [List.foldl_nil, countPairs_nil]
    omega
  | cons pr rest ih =>
    rw [List.foldl_cons, ih, countPairs_cons]
    show getD0 (getCounter (bumpT K.transition_counts pr.1 pr.2) a) b
        + countPairs rest a b = _
    rw [getD0_getCounter_bumpT]
    by_cases h : a = pr.1 ∧ b = pr.2
    · rw [if_pos h]
      omega
    · rw [if_neg h]
      omega

theorem transFold_others (l : List (String × String)) (K : Counts) :
    (l.foldl transBump K).start_counts = K.start_counts ∧
    (l.foldl transBump K).start_total = K.start_total ∧
    (l.foldl transBump K).emission_counts = K.emission_counts ∧
    (l.foldl transBump K).emission_totals = K.emission_totals := by
  induction l generalizing K with
  | nil => exact ⟨rfl, rfl, rfl, rfl⟩
  | cons pr rest ih => exact ih (transBump K pr)

theorem emisFold_emis_counts (l : List (String × String)) (K : Counts)
    (a b : String) :
    getD0 (getCounter (l.foldl emisBump K).emission_counts a) b
      = getD0 (getCounter K.emission_counts a) b + countPairs l a b := by
  induction l generalizing K with
  | nil =>
    rw [List.foldl_nil, countPairs_nil]
    omega
  | cons pr rest ih =>
    rw [List.foldl_cons, ih, countPairs_cons]
    show getD0 (getCounter (bumpT K.emission_counts pr.1 pr.2) a) b
        + countPairs rest a b = _
    rw [getD0_getCounter_bumpT]
    by_cases h : a = pr.1 ∧ b = pr.2
    · rw [if_pos h]
      omega
    · rw [if_neg h]
      omega

theorem emisFold_others (l : List (String × String)) (K : Counts) :
    (l.foldl emisBump K).start_counts = K.start_counts ∧
    (l.foldl emisBump K).start_total = K.start_total ∧
    (l.foldl emisBump K).transition_counts = K.transition_counts ∧
    (l.foldl emisBump K).transition_totals = K.transition_totals := by
  induction l generalizing K with
  | nil => exact ⟨rfl, rfl, rfl, rfl⟩
  | cons pr rest ih => exact ih (emisBump K pr)

theorem zip_take_length {α β : Type} :
    ∀ (l1 : List α) (l2 : List β), l1.zip (l2.take l1.length) = l1.zip l2
  | [], _ => rfl
  | _ :: _, [] => rfl
  | a :: l1, b :: l2 => by
    simp only [List.length_cons, List.take_succ_cons, List.zip_cons_cons]
    rw [zip_take_length l1 l2]

theorem getLastD_of_ne_nil {α : Type} :
    ∀ (l : List α) (d1 d2 : α), l ≠ [] → l.getLastD d1 = l.getLastD d2
  | [], _, _, h => absurd rfl h
  | [a], _, _, _ => rfl
  | a :: b :: l, d1, d2, _ => by
    rw [List.getLastD_cons d1 a (b :: l), List.getLastD_cons d2 a (b :: l)]

/-! ## Finalized tables and the distribution inspectors (claim C6) -/

theorem alookup_buildLogTable_eq_none
    (counts : Table) (totals : Counter) (s : String)
    (h : getD0 totals s = 0) :
    ∀ states : List String,
    alookup (buildLogTable states counts totals) s = none := by
  intro states
  induction states with
  | nil => rfl
  | cons s0 rest ih =>
    unfold buildLogTable
    rw [List.filterMap_cons]
    by_cases ht : getD0 totals s0 = 0
    · simp only [dif_pos ht]
      exact ih
    · simp only [dif_neg ht]
      by_cases he : ((getCounter counts s0).filterMap (fun pr =>
          if pr.2 = 0 then none
          else some (pr.1, (some (pr.2, ⟨getD0 totals s0,
            Nat.pos_of_ne_zero ht⟩) : LogProb)))).isEmpty
      · simp only [if_pos he]
        exact ih
      · simp only [if_neg he]
        have hne : ¬ s = s0 := by
          intro hss
          rw [hss] at h
          exact ht h
        show (if s = s0 then _ else _) = none
        rw [if_neg hne]
        exact ih

/-- After `_finalize_probabilities`, the two-level log tables are either
empty (empty alphabet) or exactly the tables built from the model's own
alphabet, counts and totals. -/
def FinalizedTables (m : SpellCheckerHMM) : Prop :=
  (m.transition_log_probs = [] ∨
    m.transition_log_probs
      = buildLogTable m.states m.transition_counts m.transition_totals) ∧
  (m.emission_log_probs = [] ∨
    m.emission_log_probs
      = buildLogTable m.states m.emission_counts m.emission_totals)

theorem finalize_finalizedTables (m : SpellCheckerHMM) :
    FinalizedTables (finalize m) := by
  unfold finalize FinalizedTables
  by_cases h : m.states.isEmpty
  · rw [if_pos h]
    exact ⟨Or.inl rfl, Or.inl rfl⟩
  · rw [if_neg h]
    exact ⟨Or.inr rfl, Or.inr rfl⟩

theorem train_finalizedTables (m : SpellCheckerHMM)
    (pairs : List (String × String)) :
    FinalizedTables (train m pairs) := by
  unfold train
  exact finalize_finalizedTables _

/-! ## Path and column invariants of the Viterbi fold (claims C10 and C2) -/

theorem alookup_append_some {β : Type} :
    ∀ (l1 l2 : List (String × β)) (q : String) (v : β),
    alookup l1 q = some v → alookup (l1 ++ l2) q = some v
  | [], _, _, _, h => by cases h
  | (k, w) :: rest, l2, q, v, h => by
    by_cases hq : q = k
    · simp only [alookup, if_pos hq] at h
      simp only [List.cons_append, alookup, if_pos hq]
      exact h
    · simp only [alookup, if_neg hq] at h
      simp only [List.cons_append, alookup, if_neg hq]
      exact alookup_append_some rest l2 q v h

theorem alookup_append_none {β : Type} :
    ∀ (l1 l2 : List (String × β)) (q : String),
    alookup l1 q = none → alookup (l1 ++ l2) q = alookup l2 q
  | [], _, _, _ => rfl
  | (k, w) :: rest, l2, q, h => by
    by_cases hq : q = k
    · simp only [alookup, if_pos hq] at h
      cases h
    · simp only [alookup, if_neg hq] at h
      simp only [List.cons_append, alookup, if_neg hq]
      exact alookup_append_none rest l2 q h

/-- Generic fold-invariant principle. -/
theorem foldl_inv {α β : Type} (P : β → Prop) (Q : α → Prop)
    (f : β → α → β)
    (hstep : ∀ b x, P b → Q x → P (f b x)) :
    ∀ (l : List α), (∀ x ∈ l, Q x) → ∀ b, P b → P (l.foldl f b)
  | [], _, _, hb => hb
  | x :: l, hl, b, hb =>
    foldl_inv P Q f hstep l (fun y hy => hl y (List.mem_cons_of_mem x hy))
      (f b x) (hstep b x hb (hl x (List.mem_cons_self x l)))

/-- Every path entry is a state sequence of the given length drawn from
the alphabet. -/
def PathLen (path : SpellCheckerHMM.Path) (n : Nat) (states : List String) :
    Prop :=
  ∀ s l, alookup path s = some l → l.length = n ∧ ∀ x ∈ l, x ∈ states

/-- Weak column-to-path link: a column entry guarantees a path entry. -/
def ColPathAll (col : SpellCheckerHMM.Col) (path : SpellCheckerHMM.Path) :
    Prop :=
  ∀ s v, alookup col s = some v → (alookup path s).isSome = true

/-- Column-to-path link: a finite column entry guarantees a path entry. -/
def ColPath (col : SpellCheckerHMM.Col) (path : SpellCheckerHMM.Path) :
    Prop :=
  ∀ s v, alookup col s = some v → v ≠ none →
    (alookup path s).isSome = true

theorem pathLen_append (path : SpellCheckerHMM.Path) (n : Nat)
    (states : List String) (x : String) (lx : List String)
    (h : PathLen path n states) (hlen : lx.length = n)
    (hmem : ∀ y ∈ lx, y ∈ states) : PathLen (path ++ [(x, lx)]) n states := by
  intro s l hl
  cases hs : alookup path s with
  | some l0 =>
    rw [alookup_append_some _ _ _ _ hs] at hl
    have hll := Option.some.inj hl
    subst hll
    exact h s l0 hs
  | none =>
    rw [alookup_append_none _ _ _ hs] at hl
    simp only [alookup] at hl
    by_cases hsx : s = x
    · rw [if_pos hsx] at hl
      have hll := Option.some.inj hl
      subst hll
      exact ⟨hlen, hmem⟩
    · rw [if_neg hsx] at hl
      cases hl

theorem pathLen_keep (path : SpellCheckerHMM.Path) (n : Nat)
    (states : List String) (h : PathLen path n states) :
    PathLen path n states := h

theorem isSome_append (path : SpellCheckerHMM.Path) (x : String)
    (lx : List String) (s : String) (h : (alookup path s).isSome = true) :
    (alookup (path ++ [(x, lx)]) s).isSome = true := by
  rcases Option.isSome_iff_exists.mp h with ⟨l, hl⟩
  rw [alookup_append_some _ _ _ _ hl]
  rfl

theorem isSome_append_self (path : SpellCheckerHMM.Path) (x : String)
    (lx : List String) : (alookup (path ++ [(x, lx)]) x).isSome = true := by
  cases hs : alookup path x with
  | some l =>
    rw [alookup_append_some _ _ _ _ hs]
    rfl
  | none =>
    rw [alookup_append_none _ _ _ hs]
    simp only [alookup, if_pos rfl]
    rfl

theorem colPathAll_append (col : SpellCheckerHMM.Col)
    (path : SpellCheckerHMM.Path) (x : String) (v : LogProb)
    (lx : List String) (h : ColPathAll col path) :
    ColPathAll (col ++ [(x, v)]) (path ++ [(x, lx)]) := by
  intro s w hw
  cases hs : alookup col s with
  | some w0 =>
    exact isSome_append path x lx s (h s w0 hs)
  | none =>
    rw [alookup_append_none _ _ _ hs] at hw
    simp only [alookup] at hw
    by_cases hsx : s = x
    · rw [hsx]
      exact isSome_append_self path x lx
    · rw [if_neg hsx] at hw
      cases hw

theorem colPath_append_none (col : SpellCheckerHMM.Col)
    (path : SpellCheckerHMM.Path) (x : String)
    (h : ColPath col path) : ColPath (col ++ [(x, none)]) path := by
  intro s w hw hfin
  cases hs : alookup col s with
  | some w0 =>
    exact h s w0 hs (by
      rw [alookup_append_some _ _ _ _ hs] at hw
      have := Option.some.inj hw
      rw [this]
      exact hfin)
  | none =>
    rw [alookup_append_none _ _ _ hs] at hw
    simp only [alookup] at hw
    by_cases hsx : s = x
    · rw [if_pos hsx] at hw
      have := Option.some.inj hw
      rw [← this] at hfin
      exact absurd rfl hfin
    · rw [if_neg hsx] at hw
      cases hw

theorem colPath_append_path (col : SpellCheckerHMM.Col)
    (path : SpellCheckerHMM.Path) (x : String) (v : LogProb)
    (lx : List String) (h : ColPath col path) :
    ColPath (col ++ [(x, v)]) (path ++ [(x, lx)]) := by
  intro s w hw hfin
  cases hs : alookup col s with
  | some w0 =>
    refine isSome_append path x lx s ?_
    apply h s w0 hs
    rw [alookup_append_some _ _ _ _ hs] at hw
    have := Option.some.inj hw
    rw [this]
    exact hfin
  | none =>
    rw [alookup_append_none _ _ _ hs] at hw
    simp only [alookup] at hw
    by_cases hsx : s = x
    · rw [hsx]
      exact isSome_append_self path x lx
    · rw [if_neg hsx] at hw
      cases hw

theorem viterbiInit_inv (m : SpellCheckerHMM) (o : String) :
    PathLen (viterbiInit m o).2.1 1 m.states ∧
    ColPathAll (viterbiInit m o).1 (viterbiInit m o).2.1 := by
  unfold viterbiInit
  exact foldl_inv
    (fun (acc : Col × Path × SpellCheckerHMM) =>
      PathLen acc.2.1 1 m.states ∧ ColPathAll acc.1 acc.2.1)
    (fun s => s ∈ m.states) (initStep o)
    (fun acc x hacc hx =>
      ⟨pathLen_append acc.2.1 1 m.states x [x] hacc.1 rfl
        (fun y hy => by
          rw [List.mem_singleton] at hy
          rw [hy]
          exact hx),
       colPathAll_append acc.1 acc.2.1 x _ [x] hacc.2⟩)
    m.states (fun _ hx => hx) ([], [], m)
    (And.intro (fun s l hl => by cases hl) (fun s v hv => by cases hv))

theorem bestPrev_some_path (states : List String) (prevCol : Col)
    (path : Path) (curr : String) (m : SpellCheckerHMM) :
    ∀ p, (bestPrev states prevCol path curr m).1 = some p →
      (alookup path p).isSome = true := by
  unfold bestPrev
  refine foldl_inv
    (fun (acc : Option String × LogProb × SpellCheckerHMM) =>
      ∀ p, acc.1 = some p → (alookup path p).isSome = true)
    (fun _ => True) (prevStep prevCol path curr) ?_ states
    (fun _ _ => trivial) (none, none, m) (fun p h => by cases h)
  intro acc x hacc _
  unfold prevStep
  by_cases h1 : (alookup path x).isNone = true
  · rw [if_pos h1]
    exact hacc
  · rw [if_neg h1]
    cases hc : alookup prevCol x with
    | none =>
      simp only [hc]
      exact hacc
    | some psc =>
      simp only [hc]
      by_cases h2 : lpLt acc.2.1
          (lpAdd psc (log_transition_prob acc.2.2 x curr).1)
      · rw [if_pos h2]
        intro p hp
        have hxp := Option.some.inj hp
        subst hxp
        cases ho : alookup path x with
        | none =>
          rw [ho] at h1
          exact absurd rfl h1
        | some lp => rfl
      · rw [if_neg h2]
        exact hacc

theorem viterbiStep_inv (states : List String)
    (acc : Col × Path × SpellCheckerHMM) (o : String) (n : Nat)
    (hp : PathLen acc.2.1 n states) :
    PathLen (viterbiStep states acc o).2.1 (n + 1) states ∧
    ColPath (viterbiStep states acc o).1 (viterbiStep states acc o).2.1 := by
  unfold viterbiStep
  refine foldl_inv
    (fun (a : Col × Path × SpellCheckerHMM) =>
      PathLen a.2.1 (n + 1) states ∧ ColPath a.1 a.2.1)
    (fun s => s ∈ states) (currStep states acc.1 acc.2.1 o) ?_ states
    (fun _ hx => hx) ([], [], acc.2.2)
    (And.intro (fun s l hl => by cases hl)
      (fun s v hv hne => by cases hv))
  intro a x ha hx
  unfold currStep
  cases hbp : (bestPrev states acc.1 acc.2.1 x
      (log_emission_prob a.2.2 x o).2).1 with
  | some p =>
    simp only [hbp]
    have hpp := bestPrev_some_path states acc.1 acc.2.1 x
      (log_emission_prob a.2.2 x o).2 p hbp
    rcases Option.isSome_iff_exists.mp hpp with ⟨lp, hlp⟩
    have hlp2 := hp p lp hlp
    constructor
    · refine pathLen_append a.2.1 (n + 1) states x _ ha.1 ?_ ?_
      · rw [hlp]
        simp [hlp2.1]
      · intro y hy
        rw [hlp] at hy
        simp only [Option.getD_some, List.mem_append,
          List.mem_singleton] at hy
        rcases hy with hy | hy
        · exact hlp2.2 y hy
        · rw [hy]
          exact hx
    · exact colPath_append_path a.1 a.2.1 x _ _ ha.2
  | none =>
    simp only [hbp]
    exact ⟨ha.1, colPath_append_none a.1 a.2.1 x ha.2⟩

theorem viterbiRun_inv (m : SpellCheckerHMM) (o0 : String)
    (orest : List String) :
    PathLen (viterbiRun m o0 orest).2.1 (1 + orest.length) m.states ∧
    ColPath (viterbiRun m o0 orest).1 (viterbiRun m o0 orest).2.1 := by
  unfold viterbiRun
  suffices h : ∀ (l : List String) (acc : Col × Path × SpellCheckerHMM)
      (n : Nat), PathLen acc.2.1 n m.states → ColPath acc.1 acc.2.1 →
      PathLen (l.foldl (viterbiStep m.states) acc).2.1 (n + l.length)
        m.states ∧
      ColPath (l.foldl (viterbiStep m.states) acc).1
        (l.foldl (viterbiStep m.states) acc).2.1 by
    have hinit := viterbiInit_inv m o0
    have hcp : ColPath (viterbiInit m o0).1 (viterbiInit m o0).2.1 :=
      fun s v hv _ => hinit.2 s v hv
    have hres := h orest (viterbiInit m o0) 1 hinit.1 hcp
    rw [Nat.add_comm 1 orest.length]
    rw [Nat.add_comm 1 orest.length] at hres
    exact hres
  intro l
  induction l with
  | nil =>
    intro acc n h1 h2
    exact ⟨h1, h2⟩
  | cons o rest ih =>
    intro acc n h1 h2
    rw [List.foldl_cons]
    have hstep := viterbiStep_inv m.states acc o n h1
    have hres := ih (viterbiStep m.states acc o) (n + 1) hstep.1 hstep.2
    have heq : n + 1 + rest.length = n + (o :: rest).length := by
      rw [List.length_cons]
      omega
    rw [heq] at hres
    exact hres

theorem finalPick_some_col (states : List String) (col : Col)
    (m : SpellCheckerHMM) (s : String)
    (h : (finalPick states col m).1 = some s) :
    ∃ v, alookup col s = some v ∧ v ≠ none := by
  have hinv := foldl_inv
    (fun (acc : Option String × LogProb × SpellCheckerHMM) =>
      ∀ s2, acc.1 = some s2 → ∃ v, alookup col s2 = some v ∧ v ≠ none)
    (fun _ => True) (finalStep col) ?_ states (fun _ _ => trivial)
    (none, none, m) (fun s2 h2 => by cases h2)
  · exact hinv s h
  · intro acc x hacc _
    unfold finalStep
    cases hc : alookup col x with
    | none =>
      simp only [hc]
      exact hacc
    | some sc =>
      simp only [hc]
      by_cases h2 : lpLt acc.2.1
          (lpAdd sc (log_transition_prob acc.2.2 x END_STATE).1)
      · rw [if_pos h2]
        intro s2 hs2
        have hx2 := Option.some.inj hs2
        subst hx2
        refine ⟨sc, hc, ?_⟩
        intro hscnone
        rw [hscnone, lpAdd_none_left] at h2
        exact lpLt_none_right acc.2.1 h2
      · rw [if_neg h2]
        exact hacc

theorem str_data_append (a b : String) : (a ++ b).data = a.data ++ b.data :=
  rfl

theorem foldl_append_length :
    ∀ (l : List String) (acc : String),
    (l.foldl (fun a b => a ++ b) acc).data.length
      = acc.data.length + (l.map (fun s => s.data.length)).sum
  | [], acc => by simp
  | x :: l, acc => by
    rw [List.foldl_cons, foldl_append_length l (acc ++ x)]
    rw [str_data_append]
    simp only [List.map_cons, List.sum_cons, List.length_append]
    omega

theorem pyJoin_length (l : List String)
    (h : ∀ x ∈ l, x.data.length = 1) :
    (pyJoin l).data.length = l.length := by
  unfold pyJoin
  rw [foldl_append_length]
  have hsum : ∀ L : List String, (∀ x ∈ L, x.data.length = 1) →
      (L.map (fun s => s.data.length)).sum = L.length := by
    intro L
    induction L with
    | nil =>
      intro _
      rfl
    | cons a r ih =>
      intro hL
      simp only [List.map_cons, List.sum_cons, List.length_cons,
        hL a (List.mem_cons_self a r),
        ih (fun x hx => hL x (List.mem_cons_of_mem a hx))]
      omega
  rw [hsum l h]
  simp

theorem restoreCase_length (w d : String) :
    (restoreCase w d).data.length = d.data.length := by
  unfold restoreCase
  by_cases h1 : pyIsUpper w = true
  · rw [if_pos h1]
    show (String.mk (d.data.map Char.toUpper)).data.length = _
    simp
  · rw [if_neg h1]
    by_cases h2 : firstIsUpper w = true
    · rw [if_pos h2]
      unfold pyCapitalize
      cases hd : d.data with
      | nil =>
        show d.data.length = ([] : List Char).length
        rw [hd]
      | cons c r =>
        show (String.mk (Char.toUpper c :: r.map Char.toLower)).data.length
            = _
        simp [hd]
    · rw [if_neg h2]

/-- The decoded word has exactly one state per observed position, so
`decode_word` preserves length whenever all states are single characters
(as every trained model guarantees). -/
theorem decode_word_length (m : SpellCheckerHMM) (w : String)
    (hsing : ∀ s ∈ m.states, s.data.length = 1) :
    ((decode_word m w).1).data.length = w.data.length := by
  unfold decode_word
  by_cases hg : (w.data.isEmpty || m.states.isEmpty) = true
  · rw [if_pos hg]
  · rw [if_neg hg]
    cases hobs : obsOf w with
    | nil => rfl
    | cons o0 orest =>
      simp only [hobs]
      cases hfp : (finalPick m.states (viterbiRun m o0 orest).1
          (viterbiRun m o0 orest).2.2).1 with
      | none => simp only [hfp]
      | some s =>
        simp only [hfp]
        have hrun := viterbiRun_inv m o0 orest
        rcases finalPick_some_col m.states (viterbiRun m o0 orest).1
          (viterbiRun m o0 orest).2.2 s hfp with ⟨v, hv, hvne⟩
        have hps := hrun.2 s v hv hvne
        rcases Option.isSome_iff_exists.mp hps with ⟨l, hl⟩
        have hlen := hrun.1 s l hl
        show (restoreCase w (pyJoin ((alookup
            (viterbiRun m o0 orest).2.1 s).getD []))).data.length = _
        rw [hl]
        simp only [Option.getD_some]
        rw [restoreCase_length, pyJoin_length l
          (fun x hx => hsing x (hlen.2 x hx)), hlen.1]
        have hoblen : (obsOf w).length = w.data.length := by
          unfold obsOf pyChars pyLower
          simp
        rw [hobs] at hoblen
        simp only [List.length_cons] at hoblen
        omega

/-! ## Train as a function of the accumulated counts (claim C8) -/

theorem train_eq_finalize (m : SpellCheckerHMM)
    (pairs : List (String × String)) :
    train m pairs = finalize
      { (withCounts m (pairs.foldl stepCounts (countsOf m))) with
        state_set :=
          (pairs.foldl stepSet m.state_set).filter (fun s => s ≠ "\n")
        states := sortStrings
          ((pairs.foldl stepSet m.state_set).filter (fun s => s ≠ "\n")) } :=
  rfl

theorem finalize_states (x : SpellCheckerHMM) :
    (finalize x).states = x.states := by
  unfold finalize
  by_cases h : x.states.isEmpty
  · rw [if_pos h]
  · rw [if_neg h]

theorem finalize_state_set (x : SpellCheckerHMM) :
    (finalize x).state_set = x.state_set := by
  unfold finalize
  by_cases h : x.states.isEmpty
  · rw [if_pos h]
  · rw [if_neg h]

theorem finalize_countsOf (x : SpellCheckerHMM) :
    countsOf (finalize x) = countsOf x := by
  unfold finalize
  by_cases h : x.states.isEmpty
  · rw [if_pos h]
    rfl
  · rw [if_neg h]
    rfl

/-- The finalized log tables are exactly the tables built from the
model's alphabet and counts; when the alphabet is empty both sides are
empty, so no side condition is needed. -/
theorem finalize_tables (x : SpellCheckerHMM) :
    (finalize x).start_log_probs
      = buildStartLogProbs x.states x.start_counts x.start_total ∧
    (finalize x).transition_log_probs
      = buildLogTable x.states x.transition_counts x.transition_totals ∧
    (finalize x).emission_log_probs
      = buildLogTable x.states x.emission_counts x.emission_totals := by
  unfold finalize
  by_cases h : x.states.isEmpty
  · rw [if_pos h]
    have hx : x.states = [] := by simpa using h
    refine ⟨?_, ?_, ?_⟩ <;> rw [hx] <;> rfl
  · rw [if_neg h]
    exact ⟨rfl, rfl, rfl⟩

theorem countsOf_train (m : SpellCheckerHMM)
    (pairs : List (String × String)) :
    countsOf (train m pairs) = pairs.foldl stepCounts (countsOf m) := by
  rw [train_eq_finalize, finalize_countsOf]
  rfl

theorem states_train (m : SpellCheckerHMM) (pairs : List (String × String)) :
    (train m pairs).states = sortStrings
      ((pairs.foldl stepSet m.state_set).filter (fun s => s ≠ "\n")) := by
  rw [train_eq_finalize, finalize_states]

theorem state_set_train (m : SpellCheckerHMM)
    (pairs : List (String × String)) :
    (train m pairs).state_set
      = (pairs.foldl stepSet m.state_set).filter (fun s => s ≠ "\n") := by
  rw [train_eq_finalize, finalize_state_set]

theorem start_counts_eq_of_countsOf {m1 m2 : SpellCheckerHMM}
    (h : countsOf m1 = countsOf m2) : m1.start_counts = m2.start_counts :=
  congrArg Counts.start_counts h

theorem start_total_eq_of_countsOf {m1 m2 : SpellCheckerHMM}
    (h : countsOf m1 = countsOf m2) : m1.start_total = m2.start_total :=
  congrArg Counts.start_total h

theorem transition_counts_eq_of_countsOf {m1 m2 : SpellCheckerHMM}
    (h : countsOf m1 = countsOf m2) :
    m1.transition_counts = m2.transition_counts :=
  congrArg Counts.transition_counts h

theorem transition_totals_eq_of_countsOf {m1 m2 : SpellCheckerHMM}
    (h : countsOf m1 = countsOf m2) :
    m1.transition_totals = m2.transition_totals :=
  congrArg Counts.transition_totals h

theorem emission_counts_eq_of_countsOf {m1 m2 : SpellCheckerHMM}
    (h : countsOf m1 = countsOf m2) :
    m1.emission_counts = m2.emission_counts :=
  congrArg Counts.emission_counts h

theorem emission_totals_eq_of_countsOf {m1 m2 : SpellCheckerHMM}
    (h : countsOf m1 = countsOf m2) :
    m1.emission_totals = m2.emission_totals :=
  congrArg Counts.emission_totals h

theorem tables_train (m : SpellCheckerHMM) (pairs : List (String × String)) :
    (train m pairs).start_log_probs
      = buildStartLogProbs (train m pairs).states (train m pairs).start_counts
          (train m pairs).start_total ∧
    (train m pairs).transition_log_probs
      = buildLogTable (train m pairs).states (train m pairs).transition_counts
          (train m pairs).transition_totals ∧
    (train m pairs).emission_log_probs
      = buildLogTable (train m pairs).states (train m pairs).emission_counts
          (train m pairs).emission_totals := by
  rw [train_eq_finalize]
  refine ⟨?_, ?_, ?_⟩
  · rw [(finalize_tables _).1, finalize_states,
      start_counts_eq_of_countsOf (finalize_countsOf _),
      start_total_eq_of_countsOf (finalize_countsOf _)]
  · rw [(finalize_tables _).2.1, finalize_states,
      transition_counts_eq_of_countsOf (finalize_countsOf _),
      transition_totals_eq_of_countsOf (finalize_countsOf _)]
  · rw [(finalize_tables _).2.2, finalize_states,
      emission_counts_eq_of_countsOf (finalize_countsOf _),
      emission_totals_eq_of_countsOf (finalize_countsOf _)]

/-! ## Set membership and sorting (claim C8) -/

theorem mem_insertNew (l : List String) (a x : String) :
    x ∈ insertNew l a ↔ x ∈ l ∨ x = a := by
  unfold insertNew
  by_cases h : a ∈ l
  · rw [if_pos h]
    constructor
    · exact Or.inl
    · rintro (hx | rfl)
      · exact hx
      · exact h
  · rw [if_neg h]
    simp

theorem nodup_insertNew (l : List String) (a : String) (h : l.Nodup) :
    (insertNew l a).Nodup := by
  unfold insertNew
  by_cases hm : a ∈ l
  · rw [if_pos hm]
    exact h
  · rw [if_neg hm]
    rw [List.nodup_append]
    refine ⟨h, List.nodup_singleton a, ?_⟩
    intro x hx hxa
    rw [List.mem_singleton] at hxa
    exact hm (hxa ▸ hx)

theorem mem_insertAll (xs : List String) :
    ∀ (l : List String) (x : String),
    x ∈ insertAll l xs ↔ x ∈ l ∨ x ∈ xs := by
  induction xs with
  | nil =>
    intro l x
    simp [insertAll]
  | cons a rest ih =>
    intro l x
    show x ∈ insertAll (insertNew l a) rest ↔ _
    rw [ih, mem_insertNew]
    constructor
    · rintro ((hx | hxa) | hx)
      · exact Or.inl hx
      · rw [hxa]
        exact Or.inr (List.mem_cons_self _ _)
      · exact Or.inr (List.mem_cons_of_mem a hx)
    · rintro (hx | hx)
      · exact Or.inl (Or.inl hx)
      · rcases List.mem_cons.mp hx with rfl | hx
        · exact Or.inl (Or.inr rfl)
        · exact Or.inr hx

theorem nodup_insertAll (xs : List String) :
    ∀ l : List String, l.Nodup → (insertAll l xs).Nodup := by
  induction xs with
  | nil =>
    intro l h
    exact h
  | cons a rest ih =>
    intro l h
    exact ih (insertNew l a) (nodup_insertNew l a h)

theorem mem_stepSet (A : List String) (p : String × String) (x : String) :
    x ∈ stepSet A p ↔ x ∈ A ∨ x ∈ stepSet [] p := by
  unfold stepSet stepSetProc
  by_cases h : ((pyLower (pyStrip p.1)).data.isEmpty
      || (pyLower (pyStrip p.2)).data.isEmpty) = true
  · rw [if_pos h, if_pos h]
    simp
  · rw [if_neg h, if_neg h]
    rw [mem_insertAll, mem_insertAll]
    simp

theorem nodup_stepSet (A : List String) (p : String × String)
    (h : A.Nodup) : (stepSet A p).Nodup := by
  unfold stepSet stepSetProc
  by_cases hg : ((pyLower (pyStrip p.1)).data.isEmpty
      || (pyLower (pyStrip p.2)).data.isEmpty) = true
  · rw [if_pos hg]
    exact h
  · rw [if_neg hg]
    exact nodup_insertAll _ A h

theorem mem_foldl_stepSet (P : List (String × String)) :
    ∀ (A : List String) (x : String),
    x ∈ P.foldl stepSet A ↔ x ∈ A ∨ ∃ p ∈ P, x ∈ stepSet [] p := by
  induction P with
  | nil =>
    intro A x
    simp
  | cons p rest ih =>
    intro A x
    rw [List.foldl_cons, ih, mem_stepSet]
    constructor
    · rintro ((hx | hx) | ⟨q, hq, hx⟩)
      · exact Or.inl hx
      · exact Or.inr ⟨p, List.mem_cons_self p rest, hx⟩
      · exact Or.inr ⟨q, List.mem_cons_of_mem p hq, hx⟩
    · rintro (hx | ⟨q, hq, hx⟩)
      · exact Or.inl (Or.inl hx)
      · rcases List.mem_cons.mp hq with rfl | hq
        · exact Or.inl (Or.inr hx)
        · exact Or.inr ⟨q, hq, hx⟩

theorem nodup_foldl_stepSet (P : List (String × String)) :
    ∀ A : List String, A.Nodup → (P.foldl stepSet A).Nodup := by
  induction P with
  | nil =>
    intro A h
    exact h
  | cons p rest ih =>
    intro A h
    exact ih (stepSet A p) (nodup_stepSet A p h)

theorem sortStrings_congr {l1 l2 : List String} (h : l1.Perm l2) :
    sortStrings l1 = sortStrings l2 :=
  List.eq_of_perm_of_sorted
    ((List.perm_insertionSort strLe l1).trans
      (h.trans (List.perm_insertionSort strLe l2).symm))
    (List.sorted_insertionSort strLe l1)
    (List.sorted_insertionSort strLe l2)

/-! ## Trained alphabets consist of single characters (claim C10) -/

theorem mem_stepSet_nil_length (p : String × String) (x : String)
    (hx : x ∈ stepSet [] p) : x.data.length = 1 := by
  unfold stepSet stepSetProc at hx
  by_cases hg : ((pyLower (pyStrip p.1)).data.isEmpty
      || (pyLower (pyStrip p.2)).data.isEmpty) = true
  · rw [if_pos hg] at hx
    cases hx
  · rw [if_neg hg] at hx
    rw [mem_insertAll] at hx
    rcases hx with hx | hx
    · cases hx
    · rcases List.mem_map.mp hx with ⟨c, _, hc⟩
      rw [← hc]
      rfl

theorem train_states_length (m : SpellCheckerHMM)
    (pairs : List (String × String))
    (h : ∀ s ∈ m.state_set, s.data.length = 1) :
    (∀ s ∈ (train m pairs).states, s.data.length = 1) ∧
    (∀ s ∈ (train m pairs).state_set, s.data.length = 1) := by
  have hset : ∀ s ∈ pairs.foldl stepSet m.state_set, s.data.length = 1 := by
    intro s hs
    rw [mem_foldl_stepSet] at hs
    rcases hs with hs | ⟨p, _, hs⟩
    · exact h s hs
    · exact mem_stepSet_nil_length p s hs
  constructor
  · intro s hs
    rw [states_train] at hs
    have hmem : s ∈ ((pairs.foldl stepSet m.state_set).filter
        (fun s => s ≠ "\n")) :=
      (List.perm_insertionSort strLe _).mem_iff.mp hs
    exact hset s (List.mem_filter.mp hmem).1
  · intro s hs
    rw [state_set_train] at hs
    exact hset s (List.mem_filter.mp hs).1

/-! ## ASCII case arithmetic (claim C2) -/

theorem toNat_ofNat_valid {n : Nat} (h : n < 55296) :
    (Char.ofNat n).toNat = n := by
  rw [Char.ofNat, dif_pos (Or.inl h)]
  rfl

theorem isLower_iff (c : Char) :
    c.isLower = true ↔ 97 ≤ c.toNat ∧ c.toNat ≤ 122 := by
  simp [Char.isLower, UInt32.le_def, BitVec.le_def, Char.toNat, UInt32.toNat,
    ge_iff_le]

theorem isUpper_iff (c : Char) :
    c.isUpper = true ↔ 65 ≤ c.toNat ∧ c.toNat ≤ 90 := by
  simp [Char.isUpper, UInt32.le_def, BitVec.le_def, Char.toNat, UInt32.toNat,
    ge_iff_le]

theorem toLower_toUpper (c : Char) :
    Char.toLower (Char.toUpper c) = Char.toLower c := by
  simp only [Char.toUpper, Char.toLower]
  by_cases h : c.toNat ≥ 97 ∧ c.toNat ≤ 122
  · rw [if_pos h]
    have ht : (Char.ofNat (c.toNat - 32)).toNat = c.toNat - 32 :=
      toNat_ofNat_valid (by omega)
    have hc1 : (Char.ofNat (c.toNat - 32)).toNat ≥ 65 ∧
        (Char.ofNat (c.toNat - 32)).toNat ≤ 90 := by
      rw [ht]
      omega
    rw [if_pos hc1, if_neg (by omega : ¬ (c.toNat ≥ 65 ∧ c.toNat ≤ 90)), ht]
    have h32 : c.toNat - 32 + 32 = c.toNat := by omega
    rw [h32, Char.ofNat_toNat]
  · rw [if_neg h]

theorem toLower_toLower (c : Char) :
    Char.toLower (Char.toLower c) = Char.toLower c := by
  simp only [Char.toLower]
  by_cases h : c.toNat ≥ 65 ∧ c.toNat ≤ 90
  · rw [if_pos h]
    have ht : (Char.ofNat (c.toNat + 32)).toNat = c.toNat + 32 :=
      toNat_ofNat_valid (by omega)
    rw [if_neg (by rw [ht]; omega)]
  · rw [if_neg h, if_neg h]

theorem toUpper_toUpper (c : Char) :
    Char.toUpper (Char.toUpper c) = Char.toUpper c := by
  simp only [Char.toUpper]
  by_cases h : c.toNat ≥ 97 ∧ c.toNat ≤ 122
  · rw [if_pos h]
    have ht : (Char.ofNat (c.toNat - 32)).toNat = c.toNat - 32 :=
      toNat_ofNat_valid (by omega)
    rw [if_neg (by rw [ht]; omega)]
  · rw [if_neg h, if_neg h]

theorem toUpper_toLower (c : Char) :
    Char.toUpper (Char.toLower c) = Char.toUpper c := by
  simp only [Char.toLower, Char.toUpper]
  by_cases h : c.toNat ≥ 65 ∧ c.toNat ≤ 90
  · rw [if_pos h]
    have ht : (Char.ofNat (c.toNat + 32)).toNat = c.toNat + 32 :=
      toNat_ofNat_valid (by omega)
    have hc1 : (Char.ofNat (c.toNat + 32)).toNat ≥ 97 ∧
        (Char.ofNat (c.toNat + 32)).toNat ≤ 122 := by
      rw [ht]
      omega
    rw [if_pos hc1, if_neg (by omega : ¬ (c.toNat ≥ 97 ∧ c.toNat ≤ 122)), ht]
    have h32 : c.toNat + 32 - 32 = c.toNat := by omega
    rw [h32, Char.ofNat_toNat]
  · rw [if_neg h]

theorem isLower_toUpper (c : Char) : (Char.toUpper c).isLower = false := by
  simp only [Char.toUpper]
  by_cases h : c.toNat ≥ 97 ∧ c.toNat ≤ 122
  · rw [if_pos h]
    have ht : (Char.ofNat (c.toNat - 32)).toNat = c.toNat - 32 :=
      toNat_ofNat_valid (by omega)
    rw [← Bool.not_eq_true, isLower_iff, ht]
    omega
  · rw [if_neg h, ← Bool.not_eq_true, isLower_iff]
    omega

theorem isUpper_toUpper_of_cased (c : Char) (h : isCased c = true) :
    (Char.toUpper c).isUpper = true := by
  unfold isCased at h
  rw [Bool.or_eq_true, isUpper_iff, isLower_iff] at h
  simp only [Char.toUpper]
  by_cases h2 : c.toNat ≥ 97 ∧ c.toNat ≤ 122
  · rw [if_pos h2]
    have ht : (Char.ofNat (c.toNat - 32)).toNat = c.toNat - 32 :=
      toNat_ofNat_valid (by omega)
    rw [isUpper_iff, ht]
    omega
  · rw [if_neg h2, isUpper_iff]
    omega

theorem isLower_toLower_of_cased (c : Char) (h : isCased c = true) :
    (Char.toLower c).isLower = true := by
  unfold isCased at h
  rw [Bool.or_eq_true, isUpper_iff, isLower_iff] at h
  simp only [Char.toLower]
  by_cases h2 : c.toNat ≥ 65 ∧ c.toNat ≤ 90
  · rw [if_pos h2]
    have ht : (Char.ofNat (c.toNat + 32)).toNat = c.toNat + 32 :=
      toNat_ofNat_valid (by omega)
    rw [isLower_iff, ht]
    omega
  · rw [if_neg h2, isLower_iff]
    omega

theorem isCased_toUpper_of_cased (c : Char) (h : isCased c = true) :
    isCased (Char.toUpper c) = true := by
  unfold isCased
  rw [Bool.or_eq_true]
  exact Or.inl (isUpper_toUpper_of_cased c h)

/-! ## String-level case lemmas (claim C2) -/

theorem pyLower_pyUpper (w : String) : pyLower (pyUpper w) = pyLower w := by
  unfold pyLower pyUpper
  show String.mk ((w.data.map Char.toUpper).map Char.toLower) = _
  rw [List.map_map,
    show Char.toLower ∘ Char.toUpper = Char.toLower from
      funext toLower_toUpper]

theorem pyLower_pyCapitalize (w : String) :
    pyLower (pyCapitalize w) = pyLower w := by
  unfold pyCapitalize
  cases hd : w.data with
  | nil =>
    unfold pyLower
    rw [hd]
  | cons c r =>
    unfold pyLower
    show String.mk ((Char.toUpper c :: r.map Char.toLower).map Char.toLower)
        = String.mk (w.data.map Char.toLower)
    rw [hd]
    simp only [List.map_cons, List.map_map, toLower_toUpper,
      show Char.toLower ∘ Char.toLower = Char.toLower from
        funext toLower_toLower]

theorem pyUpper_restoreCase (w d : String) :
    pyUpper (restoreCase w d) = pyUpper d := by
  unfold restoreCase
  by_cases h1 : pyIsUpper w = true
  · rw [if_pos h1]
    unfold pyUpper
    show String.mk ((d.data.map Char.toUpper).map Char.toUpper) = _
    rw [List.map_map,
      show Char.toUpper ∘ Char.toUpper = Char.toUpper from
        funext toUpper_toUpper]
  · rw [if_neg h1]
    by_cases h2 : firstIsUpper w = true
    · rw [if_pos h2]
      unfold pyCapitalize
      cases hd : d.data with
      | nil =>
        have : d = String.mk [] := by
          cases d
          simp at hd
          rw [hd]
        rw [this]
      | cons c r =>
        unfold pyUpper
        show String.mk ((Char.toUpper c :: r.map Char.toLower).map
            Char.toUpper) = String.mk (d.data.map Char.toUpper)
        rw [hd]
        simp only [List.map_cons, List.map_map, toUpper_toUpper,
          show Char.toUpper ∘ Char.toLower = Char.toUpper from
            funext toUpper_toLower]
    · rw [if_neg h2]

theorem pyCapitalize_restoreCase (w d : String) :
    pyCapitalize (restoreCase w d) = pyCapitalize d := by
  unfold restoreCase
  by_cases h1 : pyIsUpper w = true
  · rw [if_pos h1]
    unfold pyUpper
    unfold pyCapitalize
    cases hd : d.data with
    | nil =>
      have hduse : d = String.mk [] := by
        cases d
        simp at hd
        rw [hd]
      rw [hduse]
      rfl
    | cons c r =>
      show String.mk (Char.toUpper (Char.toUpper c)
            :: (r.map Char.toUpper).map Char.toLower)
          = String.mk (Char.toUpper c :: r.map Char.toLower)
      rw [toUpper_toUpper, List.map_map,
        show Char.toLower ∘ Char.toUpper = Char.toLower from
          funext toLower_toUpper]
  · rw [if_neg h1]
    by_cases h2 : firstIsUpper w = true
    · rw [if_pos h2]
      unfold pyCapitalize
      cases hd : d.data with
      | nil =>
        have hduse : d = String.mk [] := by
          cases d
          simp at hd
          rw [hd]
        rw [hduse]
      | cons c r =>
        show String.mk (Char.toUpper (Char.toUpper c)
              :: (r.map Char.toLower).map Char.toLower)
            = String.mk (Char.toUpper c :: r.map Char.toLower)
        rw [toUpper_toUpper, List.map_map,
          show Char.toLower ∘ Char.toLower = Char.toLower from
            funext toLower_toLower]
    · rw [if_neg h2]

theorem pyIsUpper_pyUpper (w : String) (hne : w.data ≠ [])
    (halpha : ∀ c ∈ w.data, isCased c = true) :
    pyIsUpper (pyUpper w) = true := by
  unfold pyIsUpper pyUpper
  rw [Bool.and_eq_true]
  constructor
  · rw [List.any_eq_true]
    cases hd : w.data with
    | nil => exact absurd hd hne
    | cons c r =>
      refine ⟨Char.toUpper c, ?_, ?_⟩
      · show Char.toUpper c ∈ List.map Char.toUpper (c :: r)
        exact List.mem_map_of_mem Char.toUpper (List.mem_cons_self c r)
      · exact isCased_toUpper_of_cased c
          (halpha c (by rw [hd]; exact List.mem_cons_self c r))
  · rw [List.all_eq_true]
    intro x hx
    have hx2 : x ∈ w.data.map Char.toUpper := hx
    rcases List.mem_map.mp hx2 with ⟨c, _, hc⟩
    rw [← hc]
    show (! (Char.toUpper c).isLower) = true
    rw [isLower_toUpper]
    rfl

theorem obsOf_pyUpper (w : String) : obsOf (pyUpper w) = obsOf w := by
  unfold obsOf
  rw [pyLower_pyUpper]

theorem obsOf_pyCapitalize (w : String) :
    obsOf (pyCapitalize w) = obsOf w := by
  unfold obsOf
  rw [pyLower_pyCapitalize]

theorem obsOf_length (w : String) : (obsOf w).length = w.data.length := by
  unfold obsOf pyChars pyLower
  simp

theorem pyIsUpper_pyCapitalize_len1 (w : String) (c : Char)
    (hw : w.data = [c]) (hc : isCased c = true) :
    pyIsUpper (pyCapitalize w) = true := by
  unfold pyCapitalize
  simp only [hw]
  unfold pyIsUpper
  rw [Bool.and_eq_true]
  constructor
  · rw [List.any_eq_true]
    refine ⟨Char.toUpper c, ?_, isCased_toUpper_of_cased c hc⟩
    show Char.toUpper c ∈ [Char.toUpper c]
    exact List.mem_singleton.mpr rfl
  · rw [List.all_eq_true]
    intro x hx
    have hx2 : x ∈ [Char.toUpper c] := hx
    rw [List.mem_singleton] at hx2
    rw [hx2]
    show (! (Char.toUpper c).isLower) = true
    rw [isLower_toUpper]
    rfl

theorem pyIsUpper_pyCapitalize_false (w : String) (c0 c1 : Char)
    (r : List Char) (hw : w.data = c0 :: c1 :: r) (hc1 : isCased c1 = true) :
    pyIsUpper (pyCapitalize w) = false := by
  unfold pyCapitalize
  simp only [hw]
  apply Bool.eq_false_iff.mpr
  intro h
  unfold pyIsUpper at h
  rw [Bool.and_eq_true, List.all_eq_true] at h
  have hmem : Char.toLower c1 ∈ (String.mk (Char.toUpper c0
      :: (c1 :: r).map Char.toLower)).data := by
    show Char.toLower c1 ∈ Char.toUpper c0 :: (c1 :: r).map Char.toLower
    exact List.mem_cons_of_mem _
      (List.mem_map_of_mem Char.toLower (List.mem_cons_self c1 r))
  have hlow := h.2 (Char.toLower c1) hmem
  simp [isLower_toLower_of_cased c1 hc1] at hlow

theorem firstIsUpper_pyCapitalize (w : String) (c0 : Char) (r : List Char)
    (hw : w.data = c0 :: r) (hc : isCased c0 = true) :
    firstIsUpper (pyCapitalize w) = true := by
  unfold pyCapitalize
  simp only [hw]
  show (Char.toUpper c0).isUpper = true
  exact isUpper_toUpper_of_cased c0 hc

theorem pyUpper_eq_pyCapitalize_of_len1 (d : String)
    (hd : d.data.length = 1) : pyUpper d = pyCapitalize d := by
  cases hdt : d.data with
  | nil =>
    rw [hdt] at hd
    cases hd
  | cons x r =>
    rw [hdt] at hd
    simp only [List.length_cons] at hd
    have hr : r = [] := List.length_eq_zero.mp (by omega)
    subst hr
    unfold pyUpper pyCapitalize
    simp only [hdt]
    rfl

theorem decode_word_main (m : SpellCheckerHMM) (v o0 : String)
    (orest : List String) (hv : v.data.isEmpty = false)
    (hst : m.states.isEmpty = false) (hob : obsOf v = o0 :: orest) :
    (decode_word m v).1
      = match (finalPick m.states (viterbiRun m o0 orest).1
          (viterbiRun m o0 orest).2.2).1 with
        | none => v
        | some s => restoreCase v (pyJoin
            ((alookup (viterbiRun m o0 orest).2.1 s).getD [])) := by
  unfold decode_word
  rw [if_neg (by simp [hv, hst])]
  simp only [hob]
  cases hfp : (finalPick m.states (viterbiRun m o0 orest).1
      (viterbiRun m o0 orest).2.2).1 with
  | none => simp only [hfp]
  | some s => simp only [hfp]

theorem decoded_length (m : SpellCheckerHMM) (o0 : String)
    (orest : List String) (s : String)
    (hsing : ∀ st ∈ m.states, st.data.length = 1)
    (hfp : (finalPick m.states (viterbiRun m o0 orest).1
        (viterbiRun m o0 orest).2.2).1 = some s) :
    (pyJoin ((alookup (viterbiRun m o0 orest).2.1 s).getD [])).data.length
      = 1 + orest.length := by
  have hrun := viterbiRun_inv m o0 orest
  rcases finalPick_some_col m.states (viterbiRun m o0 orest).1
    (viterbiRun m o0 orest).2.2 s hfp with ⟨v, hv, hvne⟩
  have hps := hrun.2 s v hv hvne
  rcases Option.isSome_iff_exists.mp hps with ⟨l, hl⟩
  have hlen := hrun.1 s l hl
  rw [hl]
  simp only [Option.getD_some]
  rw [pyJoin_length l (fun x hx => hsing x (hlen.2 x hx)), hlen.1]

end SpellCheckerHMM

open SpellCheckerHMM


/-! ## Claims -/

/-- C1: after training a fresh model on
`[("the","the"), ("the","teh"), ("the","the")]`, the state alphabet is
`["e","h","t"]`; `transition_log_distribution "t"` is `[("h", log (3/3))]`
(the log-probability `0.0`, encoded `some (3, 3)`);
`emission_log_distribution "e"` is `[("e", log (2/3)), ("h", log (1/3))]`
in that order; `decode_word` maps `"teh" ↦ "the"`, `"TEH" ↦ "THE"`,
`"Teh" ↦ "The"`, `"the" ↦ "the"`; and `decode_text "teh teh" = "the the"`. -/
theorem claim_C1 :
    (SpellCheckerHMM.train SpellCheckerHMM.empty
      [("the", "the"), ("the", "teh"), ("the", "the")]).states
      = ["e", "h", "t"] ∧
    SpellCheckerHMM.transition_log_distribution
      (SpellCheckerHMM.train SpellCheckerHMM.empty
        [("the", "the"), ("the", "teh"), ("the", "the")]) "t"
      = [("h", some (3, 3))] ∧
    SpellCheckerHMM.emission_log_distribution
      (SpellCheckerHMM.train SpellCheckerHMM.empty
        [("the", "the"), ("the", "teh"), ("the", "the")]) "e"
      = [("e", some (2, 3)), ("h", some (1, 3))] ∧
    (SpellCheckerHMM.decode_word
      (SpellCheckerHMM.train SpellCheckerHMM.empty
        [("the", "the"), ("the", "teh"), ("the", "the")]) "teh").1 = "the" ∧
    (SpellCheckerHMM.decode_word
      (SpellCheckerHMM.train SpellCheckerHMM.empty
        [("the", "the"), ("the", "teh"), ("the", "the")]) "TEH").1 = "THE" ∧
    (SpellCheckerHMM.decode_word
      (SpellCheckerHMM.train SpellCheckerHMM.empty
        [("the", "the"), ("the", "teh"), ("the", "the")]) "Teh").1 = "The" ∧
    (SpellCheckerHMM.decode_word
      (SpellCheckerHMM.train SpellCheckerHMM.empty
        [("the", "the"), ("the", "teh"), ("the", "the")]) "the").1 = "the" ∧
    (SpellCheckerHMM.decode_text
      (SpellCheckerHMM.train SpellCheckerHMM.empty
        [("the", "the"), ("the", "teh"), ("the", "the")]) "teh teh").1
      = "the the" := by
  refine ⟨?_, ?_, ?_, ?_, ?_, ?_, ?_, ?_⟩ <;> decide

/-- C3 counterexample: a decode call does not leave the entire model state
unchanged.  After training on `[("ab","a")]` the state `"b"` has no
recorded emissions, so `decode_word` falls through the cache for `"b"` and
indexes `emission_counts["b"]`, auto-vivifying an empty counter: the model
after `decode_word "a"` differs from the model before. -/
theorem claim_C3_counterexample :
    (SpellCheckerHMM.decode_word
      (SpellCheckerHMM.train SpellCheckerHMM.empty [("ab", "a")]) "a").2
      ≠ SpellCheckerHMM.train SpellCheckerHMM.empty [("ab", "a")] := by
  decide

/-- C3 amended: `decode_word` and `decode_text` leave every observable
part of the model unchanged — the alphabet, `state_set`, the start counts
and total, both count totals, and all three finalized log-probability
tables are equal, and every lookup into the transition and emission count
tables is preserved — but the two-level count tables themselves may grow
by auto-vivified empty entries (the inspectors
`transition_log_distribution` and `emission_log_distribution` perform
only `dict.get` reads and cannot mutate anything, as their embedding as
pure functions records). -/
theorem claim_C3 (m : SpellCheckerHMM) (w : String) :
    SpellCheckerHMM.ReadsEq m (SpellCheckerHMM.decode_word m w).2 ∧
    SpellCheckerHMM.ReadsEq m (SpellCheckerHMM.decode_text m w).2 :=
  ⟨SpellCheckerHMM.decode_word_reads m w,
   SpellCheckerHMM.decode_text_reads m w⟩

/-- C4: for every model and every non-empty word, if no alphabet state has
a finite final score (last Viterbi column entry plus log transition
probability to `END_STATE`), then `decode_word` returns the word itself
unchanged (and, being total, raises nothing). -/
theorem claim_C4 (m : SpellCheckerHMM) (w : String) (hw : w.data ≠ [])
    (h : ∀ s ∈ m.states, SpellCheckerHMM.viterbiFinalScore m w s = none) :
    (SpellCheckerHMM.decode_word m w).1 = w :=
  SpellCheckerHMM.decode_word_fallback m w hw h

/-- C4 witness: on the model trained on `[("the","the")]` and the word
`"x"` (whose letter was never seen), every final score is `-inf` and the
word comes back unchanged. -/
theorem claim_C4_witness :
    ("x".data ≠ [] ∧
      (∀ s ∈ (SpellCheckerHMM.train SpellCheckerHMM.empty
          [("the", "the")]).states,
        SpellCheckerHMM.viterbiFinalScore
          (SpellCheckerHMM.train SpellCheckerHMM.empty [("the", "the")])
          "x" s = none)) ∧
    (SpellCheckerHMM.decode_word
      (SpellCheckerHMM.train SpellCheckerHMM.empty [("the", "the")])
      "x").1 = "x" :=
  ⟨⟨by decide, by decide⟩,
   claim_C4 (SpellCheckerHMM.train SpellCheckerHMM.empty [("the", "the")])
     "x" (by decide) (by decide)⟩

/-- C7: `decode_word` is the identity whenever the state alphabet is empty
(no training performed), and `decode_word ""` is `""` on every model. -/
theorem claim_C7 (m : SpellCheckerHMM) (w : String) :
    (m.states = [] → (SpellCheckerHMM.decode_word m w).1 = w) ∧
    (SpellCheckerHMM.decode_word m "").1 = "" := by
  constructor
  · intro h
    unfold SpellCheckerHMM.decode_word
    simp [h]
  · unfold SpellCheckerHMM.decode_word
    simp [show ("" : String).data = [] from rfl]

/-- C7 witness: the fresh model has an empty alphabet and decodes
`"anything"` and `""` to themselves. -/
theorem claim_C7_witness :
    SpellCheckerHMM.empty.states = [] ∧
    (SpellCheckerHMM.decode_word SpellCheckerHMM.empty "anything").1
      = "anything" ∧
    (SpellCheckerHMM.decode_word SpellCheckerHMM.empty "").1 = "" :=
  ⟨by decide,
   (claim_C7 SpellCheckerHMM.empty "anything").1 (by decide),
   (claim_C7 SpellCheckerHMM.empty "anything").2⟩

/-- C5: one iteration of `train` lower-cases and trims the pair, skips it
entirely (no counts, no alphabet contribution) when either processed
string is empty, and otherwise adds one to the start count of the first
letter of `correct`, one transition count per adjacent letter pair of
`correct` plus one from the last letter to `END_STATE`, and one emission
count from the i-th letter of `correct` to the i-th character of `typed`
exactly for indices `i < len(typed)` (the `zip` records nothing beyond
`len(typed)`); `train` folds this step over the pairs. -/
theorem claim_C5 (K : SpellCheckerHMM.Counts) (S : List String)
    (c t : String) :
    (((pyLower (pyStrip c)).data = [] ∨ (pyLower (pyStrip t)).data = []) →
      SpellCheckerHMM.stepCounts K (c, t) = K ∧
      SpellCheckerHMM.stepSet S (c, t) = S) ∧
    ((pyLower (pyStrip c)).data ≠ [] → (pyLower (pyStrip t)).data ≠ [] →
      (SpellCheckerHMM.stepCounts K (c, t)).start_total = K.start_total + 1 ∧
      (∀ k, getD0 (SpellCheckerHMM.stepCounts K (c, t)).start_counts k
        = getD0 K.start_counts k
          + if k = (pyChars (pyLower (pyStrip c))).headI then 1 else 0) ∧
      (∀ a b, getD0 (getCounter
          (SpellCheckerHMM.stepCounts K (c, t)).transition_counts a) b
        = getD0 (getCounter K.transition_counts a) b
          + countPairs ((pyChars (pyLower (pyStrip c))).zip
              (pyChars (pyLower (pyStrip c))).tail) a b
          + (if a = (pyChars (pyLower (pyStrip c))).getLastD ""
                ∧ b = END_STATE then 1 else 0)) ∧
      (∀ s o, getD0 (getCounter
          (SpellCheckerHMM.stepCounts K (c, t)).emission_counts s) o
        = getD0 (getCounter K.emission_counts s) o
          + countPairs ((pyChars (pyLower (pyStrip c))).zip
              (pyChars (pyLower (pyStrip t)))) s o) ∧
      SpellCheckerHMM.stepSet S (c, t)
        = insertAll S (pyChars (pyLower (pyStrip c)))) := by
  constructor
  · intro h
    have hg : ((pyLower (pyStrip c)).data.isEmpty
        || (pyLower (pyStrip t)).data.isEmpty) = true := by
      rcases h with h | h <;> simp [h]
    constructor
    · show SpellCheckerHMM.stepCountsProc K _ _ = K
      unfold SpellCheckerHMM.stepCountsProc
      rw [if_pos hg]
    · show SpellCheckerHMM.stepSetProc S _ _ = S
      unfold SpellCheckerHMM.stepSetProc
      rw [if_pos hg]
  · intro hc ht
    have hg : ¬ (((pyLower (pyStrip c)).data.isEmpty
        || (pyLower (pyStrip t)).data.isEmpty) = true) := by
      simp [hc, ht]
    cases hcc : pyChars (pyLower (pyStrip c)) with
    | nil =>
      exact absurd (by simpa [pyChars] using hcc) hc
    | cons L0 Ls =>
      have hstep : SpellCheckerHMM.stepCounts K (c, t)
          = ((L0 :: Ls).zip (pyChars (pyLower (pyStrip t)))).foldl
              SpellCheckerHMM.emisBump
              (SpellCheckerHMM.transBump
                (((L0 :: Ls).zip Ls).foldl SpellCheckerHMM.transBump
                  { K with
                    start_counts := bumpC K.start_counts L0
                    start_total := K.start_total + 1 })
                ((L0 :: Ls).getLastD L0, END_STATE)) := by
        show SpellCheckerHMM.stepCountsProc K _ _ = _
        unfold SpellCheckerHMM.stepCountsProc
        rw [if_neg hg, hcc]
      rw [hstep]
      set K1 : SpellCheckerHMM.Counts := { K with
        start_counts := bumpC K.start_counts L0
        start_total := K.start_total + 1 } with hK1
      set K2 := ((L0 :: Ls).zip Ls).foldl SpellCheckerHMM.transBump K1
        with hK2
      set K3 := SpellCheckerHMM.transBump K2
        ((L0 :: Ls).getLastD L0, END_STATE) with hK3
      set KF := ((L0 :: Ls).zip (pyChars (pyLower (pyStrip t)))).foldl
        SpellCheckerHMM.emisBump K3 with hKF
      have hE := SpellCheckerHMM.emisFold_others
        ((L0 :: Ls).zip (pyChars (pyLower (pyStrip t)))) K3
      have hT := SpellCheckerHMM.transFold_others ((L0 :: Ls).zip Ls) K1
      refine ⟨?_, ?_, ?_, ?_, ?_⟩
      · rw [hE.2.1]
        show K2.start_total = K.start_total + 1
        rw [hT.2.1]
      · intro k
        rw [hE.1]
        show getD0 K2.start_counts k = _
        rw [hT.1, hK1]
        rw [getD0_bumpC]
        rfl
      · intro a b
        rw [hE.2.2.1]
        show getD0 (getCounter (bumpT K2.transition_counts
            ((L0 :: Ls).getLastD L0) END_STATE) a) b = _
        rw [getD0_getCounter_bumpT,
          SpellCheckerHMM.transFold_trans_counts ((L0 :: Ls).zip Ls) K1 a b]
        have hlast : (L0 :: Ls).getLastD L0 = (L0 :: Ls).getLastD "" :=
          getLastD_of_ne_nil (L0 :: Ls) L0 "" (by simp)
        rw [hlast]
        rfl
      · intro s o
        rw [SpellCheckerHMM.emisFold_emis_counts]
        show getD0 (getCounter K2.emission_counts s) o + _ = _
        rw [hT.2.2.1]
      · show SpellCheckerHMM.stepSetProc S _ _ = _
        unfold SpellCheckerHMM.stepSetProc
        rw [if_neg hg, hcc]

/-- C9: positions of `typed` at or beyond the length of `correct`
contribute nothing to training — the counting step and the alphabet step
on `(correct, typed)` coincide with the same steps on `typed` truncated
to the length of `correct` (so only positions `0..len(correct)-1` of
`typed` are ever recorded, as emissions). -/
theorem claim_C9 (K : SpellCheckerHMM.Counts) (S : List String)
    (c t : String) (h : c.data.length < t.data.length) :
    SpellCheckerHMM.stepCountsProc K c t
      = SpellCheckerHMM.stepCountsProc K c
          (String.mk (t.data.take c.data.length)) ∧
    SpellCheckerHMM.stepSetProc S c t
      = SpellCheckerHMM.stepSetProc S c
          (String.mk (t.data.take c.data.length)) := by
  by_cases hc : c.data = []
  · have hg1 : (c.data.isEmpty || t.data.isEmpty) = true := by simp [hc]
    have hg2 : (c.data.isEmpty
        || (String.mk (t.data.take c.data.length)).data.isEmpty) = true := by
      simp [hc]
    constructor
    · unfold SpellCheckerHMM.stepCountsProc
      rw [if_pos hg1, if_pos hg2]
    · unfold SpellCheckerHMM.stepSetProc
      rw [if_pos hg1, if_pos hg2]
  · have hct : t.data ≠ [] := by
      intro hnil
      rw [hnil] at h
      simp at h
    have htr : (String.mk (t.data.take c.data.length)).data ≠ [] := by
      show t.data.take c.data.length ≠ []
      have : (t.data.take c.data.length).length = c.data.length := by
        rw [List.length_take]
        omega
      intro hnil
      rw [hnil] at this
      simp at this
      exact hc (List.length_eq_zero.mp this.symm)
    have hg1 : ¬ ((c.data.isEmpty || t.data.isEmpty) = true) := by
      simp only [Bool.or_eq_true, List.isEmpty_iff]
      rintro (h1 | h1)
      · exact hc h1
      · exact hct h1
    have hg2 : ¬ ((c.data.isEmpty
        || (String.mk (t.data.take c.data.length)).data.isEmpty) = true) := by
      simp only [Bool.or_eq_true, List.isEmpty_iff]
      rintro (h1 | h1)
      · exact hc h1
      · exact htr h1
    have hzip : ∀ L : List String, L = pyChars c →
        L.zip (pyChars (String.mk (t.data.take c.data.length)))
          = L.zip (pyChars t) := by
      intro L hL
      have h1 : pyChars (String.mk (t.data.take c.data.length))
          = (pyChars t).take c.data.length := by
        show (t.data.take c.data.length).map _ = _
        rw [List.map_take]
        rfl
      have h2 : L.length = c.data.length := by
        rw [hL]
        exact List.length_map _ _
      rw [h1, ← h2, zip_take_length]
    constructor
    · unfold SpellCheckerHMM.stepCountsProc
      rw [if_neg hg1, if_neg hg2]
      cases hcc : pyChars c with
      | nil => rfl
      | cons L0 Ls =>
        have hz := hzip (L0 :: Ls) hcc.symm
        show ((L0 :: Ls).zip (pyChars t)).foldl SpellCheckerHMM.emisBump _
            = ((L0 :: Ls).zip (pyChars (String.mk
                (t.data.take c.data.length)))).foldl
                SpellCheckerHMM.emisBump _
        rw [hz]
    · unfold SpellCheckerHMM.stepSetProc
      rw [if_neg hg1, if_neg hg2]

/-- C9 witness: with `correct = "ab"` and `typed = "abc"`, training
records the same counts and alphabet as with `typed = "ab"`. -/
theorem claim_C9_witness :
    ("ab" : String).data.length < ("abc" : String).data.length ∧
    SpellCheckerHMM.stepCountsProc
        ⟨[], 0, [], [], [], []⟩ "ab" "abc"
      = SpellCheckerHMM.stepCountsProc ⟨[], 0, [], [], [], []⟩ "ab"
          (String.mk (("abc" : String).data.take
            ("ab" : String).data.length)) :=
  ⟨by decide,
   (claim_C9 ⟨[], 0, [], [], [], []⟩ [] "ab" "abc" (by decide)).1⟩

/-- C5 witness: instantiated on the pair `("ab", "a")` on empty counts:
the start count of `"a"`, the transitions `a→b` and `b→END`, and the
single emission `a→a` are each incremented once. -/
theorem claim_C5_witness :
    (pyLower (pyStrip "ab")).data ≠ [] ∧ (pyLower (pyStrip "a")).data ≠ [] ∧
    (SpellCheckerHMM.stepCounts ⟨[], 0, [], [], [], []⟩
        ("ab", "a")).start_total = 0 + 1 ∧
    getD0 (SpellCheckerHMM.stepCounts ⟨[], 0, [], [], [], []⟩
        ("ab", "a")).start_counts "a"
      = getD0 [] "a" + (if ("a" : String)
          = (pyChars (pyLower (pyStrip "ab"))).headI then 1 else 0) := by
  refine ⟨by decide, by decide, ?_, ?_⟩
  · exact (claim_C5 ⟨[], 0, [], [], [], []⟩ [] "ab" "a").2
      (by decide) (by decide) |>.1
  · exact ((claim_C5 ⟨[], 0, [], [], [], []⟩ [] "ab" "a").2
      (by decide) (by decide)).2.1 "a"

/-- C6: for every trained (finalized) model and every state string `s`,
both inspector outputs are sorted by log-probability in non-increasing
order (`distRel p q` says the entry `q` after `p` has a log-probability at
most that of `p`), and each inspector returns the empty sequence when `s`
has no recorded outgoing transitions (respectively emissions), in
particular when `s` is unseen. -/
theorem claim_C6 (m0 : SpellCheckerHMM) (pairs : List (String × String))
    (s : String) :
    List.Sorted distRel
      (transition_log_distribution (SpellCheckerHMM.train m0 pairs) s) ∧
    List.Sorted distRel
      (emission_log_distribution (SpellCheckerHMM.train m0 pairs) s) ∧
    (getD0 (SpellCheckerHMM.train m0 pairs).transition_totals s = 0 →
      transition_log_distribution (SpellCheckerHMM.train m0 pairs) s = []) ∧
    (getD0 (SpellCheckerHMM.train m0 pairs).emission_totals s = 0 →
      emission_log_distribution (SpellCheckerHMM.train m0 pairs) s = []) := by
  refine ⟨List.sorted_insertionSort distRel _,
    List.sorted_insertionSort distRel _, ?_, ?_⟩
  · intro hz
    unfold transition_log_distribution
    rcases (train_finalizedTables m0 pairs).1 with h1 | h1
    · rw [h1]
      rfl
    · rw [h1, alookup_buildLogTable_eq_none _ _ s hz]
      rfl
  · intro hz
    unfold emission_log_distribution
    rcases (train_finalizedTables m0 pairs).2 with h1 | h1
    · rw [h1]
      rfl
    · rw [h1, alookup_buildLogTable_eq_none _ _ s hz]
      rfl

/-- C6 witness: on the worked-scenario model, the distributions of `"t"`
are sorted and the unseen state `"q"` yields empty distributions. -/
theorem claim_C6_witness :
    (getD0 (SpellCheckerHMM.train SpellCheckerHMM.empty
        [("the", "the"), ("the", "teh"), ("the", "the")]).transition_totals
        "q" = 0 ∧
     getD0 (SpellCheckerHMM.train SpellCheckerHMM.empty
        [("the", "the"), ("the", "teh"), ("the", "the")]).emission_totals
        "q" = 0) ∧
    List.Sorted distRel
      (transition_log_distribution (SpellCheckerHMM.train
        SpellCheckerHMM.empty
        [("the", "the"), ("the", "teh"), ("the", "the")]) "q") ∧
    transition_log_distribution (SpellCheckerHMM.train SpellCheckerHMM.empty
      [("the", "the"), ("the", "teh"), ("the", "the")]) "q" = [] ∧
    emission_log_distribution (SpellCheckerHMM.train SpellCheckerHMM.empty
      [("the", "the"), ("the", "teh"), ("the", "the")]) "q" = [] :=
  ⟨⟨by decide, by decide⟩,
   (claim_C6 SpellCheckerHMM.empty
     [("the", "the"), ("the", "teh"), ("the", "the")] "q").1,
   (claim_C6 SpellCheckerHMM.empty
     [("the", "the"), ("the", "teh"), ("the", "the")] "q").2.2.1 (by decide),
   (claim_C6 SpellCheckerHMM.empty
     [("the", "the"), ("the", "teh"), ("the", "the")] "q").2.2.2 (by decide)⟩

/-- C8: training in two calls accumulates: `train P1` then `train P2` on a
fresh model yields the same alphabet, the same counts, and the same
finalized log-probability tables as a single `train (P1 ++ P2)` on a fresh
model. -/
theorem claim_C8 (P1 P2 : List (String × String)) :
    (SpellCheckerHMM.train (SpellCheckerHMM.train SpellCheckerHMM.empty P1)
        P2).states
      = (SpellCheckerHMM.train SpellCheckerHMM.empty (P1 ++ P2)).states ∧
    (SpellCheckerHMM.train (SpellCheckerHMM.train SpellCheckerHMM.empty P1)
        P2).start_counts
      = (SpellCheckerHMM.train SpellCheckerHMM.empty
          (P1 ++ P2)).start_counts ∧
    (SpellCheckerHMM.train (SpellCheckerHMM.train SpellCheckerHMM.empty P1)
        P2).start_total
      = (SpellCheckerHMM.train SpellCheckerHMM.empty (P1 ++ P2)).start_total ∧
    (SpellCheckerHMM.train (SpellCheckerHMM.train SpellCheckerHMM.empty P1)
        P2).transition_counts
      = (SpellCheckerHMM.train SpellCheckerHMM.empty
          (P1 ++ P2)).transition_counts ∧
    (SpellCheckerHMM.train (SpellCheckerHMM.train SpellCheckerHMM.empty P1)
        P2).transition_totals
      = (SpellCheckerHMM.train SpellCheckerHMM.empty
          (P1 ++ P2)).transition_totals ∧
    (SpellCheckerHMM.train (SpellCheckerHMM.train SpellCheckerHMM.empty P1)
        P2).emission_counts
      = (SpellCheckerHMM.train SpellCheckerHMM.empty
          (P1 ++ P2)).emission_counts ∧
    (SpellCheckerHMM.train (SpellCheckerHMM.train SpellCheckerHMM.empty P1)
        P2).emission_totals
      = (SpellCheckerHMM.train SpellCheckerHMM.empty
          (P1 ++ P2)).emission_totals ∧
    (SpellCheckerHMM.train (SpellCheckerHMM.train SpellCheckerHMM.empty P1)
        P2).start_log_probs
      = (SpellCheckerHMM.train SpellCheckerHMM.empty
          (P1 ++ P2)).start_log_probs ∧
    (SpellCheckerHMM.train (SpellCheckerHMM.train SpellCheckerHMM.empty P1)
        P2).transition_log_probs
      = (SpellCheckerHMM.train SpellCheckerHMM.empty
          (P1 ++ P2)).transition_log_probs ∧
    (SpellCheckerHMM.train (SpellCheckerHMM.train SpellCheckerHMM.empty P1)
        P2).emission_log_probs
      = (SpellCheckerHMM.train SpellCheckerHMM.empty
          (P1 ++ P2)).emission_log_probs := by
  have hc : countsOf (SpellCheckerHMM.train
      (SpellCheckerHMM.train SpellCheckerHMM.empty P1) P2)
      = countsOf (SpellCheckerHMM.train SpellCheckerHMM.empty (P1 ++ P2)) := by
    rw [countsOf_train, countsOf_train, countsOf_train, List.foldl_append]
  have hs : (SpellCheckerHMM.train
      (SpellCheckerHMM.train SpellCheckerHMM.empty P1) P2).states
      = (SpellCheckerHMM.train SpellCheckerHMM.empty (P1 ++ P2)).states := by
    rw [states_train, states_train, state_set_train, List.foldl_append]
    apply sortStrings_congr
    have ndA : (P1.foldl stepSet SpellCheckerHMM.empty.state_set).Nodup :=
      nodup_foldl_stepSet P1 _ List.nodup_nil
    have nd1 : ((P2.foldl stepSet
        ((P1.foldl stepSet SpellCheckerHMM.empty.state_set).filter
          (fun s => s ≠ "\n"))).filter (fun s => s ≠ "\n")).Nodup :=
      (nodup_foldl_stepSet P2 _ (ndA.filter _)).filter _
    have nd2 : ((P2.foldl stepSet
        (P1.foldl stepSet SpellCheckerHMM.empty.state_set)).filter
          (fun s => s ≠ "\n")).Nodup :=
      (nodup_foldl_stepSet P2 _ ndA).filter _
    rw [List.perm_ext_iff_of_nodup nd1 nd2]
    intro x
    rw [List.mem_filter, List.mem_filter, mem_foldl_stepSet,
      mem_foldl_stepSet, List.mem_filter]
    tauto
  refine ⟨hs, start_counts_eq_of_countsOf hc, start_total_eq_of_countsOf hc,
    transition_counts_eq_of_countsOf hc, transition_totals_eq_of_countsOf hc,
    emission_counts_eq_of_countsOf hc, emission_totals_eq_of_countsOf hc,
    ?_, ?_, ?_⟩
  · rw [(tables_train _ _).1, (tables_train _ _).1, hs,
      start_counts_eq_of_countsOf hc, start_total_eq_of_countsOf hc]
  · rw [(tables_train _ _).2.1, (tables_train _ _).2.1, hs,
      transition_counts_eq_of_countsOf hc,
      transition_totals_eq_of_countsOf hc]
  · rw [(tables_train _ _).2.2, (tables_train _ _).2.2, hs,
      emission_counts_eq_of_countsOf hc, emission_totals_eq_of_countsOf hc]

/-- C10: `decode_word` preserves word length: the decoded string
concatenates exactly one state per observed position and the fallback
branches return the input itself.  This holds for every model whose
alphabet consists of single characters, and the second conjunct shows
every model produced by `train` (from any model whose `state_set` is made
of single characters, such as a fresh one) is of that shape. -/
theorem claim_C10 :
    (∀ (m : SpellCheckerHMM) (w : String),
      (∀ s ∈ m.states, s.data.length = 1) →
      ((SpellCheckerHMM.decode_word m w).1).data.length = w.data.length) ∧
    (∀ (m : SpellCheckerHMM) (pairs : List (String × String)),
      (∀ s ∈ m.state_set, s.data.length = 1) →
      ∀ s ∈ (SpellCheckerHMM.train m pairs).states, s.data.length = 1) :=
  ⟨fun m w h => decode_word_length m w h,
   fun m pairs h => (train_states_length m pairs h).1⟩

/-- C10 witness: on the model trained on `[("the","the")]`, decoding
`"teh"` yields a word of the same length. -/
theorem claim_C10_witness :
    (∀ s ∈ (SpellCheckerHMM.train SpellCheckerHMM.empty
        [("the", "the")]).states, s.data.length = 1) ∧
    ((SpellCheckerHMM.decode_word
        (SpellCheckerHMM.train SpellCheckerHMM.empty [("the", "the")])
        "teh").1).data.length = ("teh" : String).data.length :=
  ⟨by decide,
   claim_C10.1 (SpellCheckerHMM.train SpellCheckerHMM.empty
     [("the", "the")]) "teh" (by decide)⟩

/-- C2 counterexample: the case-preservation law fails as stated.  On the
model trained on `[("a","1")]`, the word `"1"` has no cased characters, so
`"1".upper().isupper()` is false and no upper-casing is applied:
`decode_word("1".upper()) = "a"` while `decode_word("1").upper() = "A"`. -/
theorem claim_C2_counterexample :
    ¬ ((SpellCheckerHMM.decode_word
        (SpellCheckerHMM.train SpellCheckerHMM.empty [("a", "1")])
        (pyUpper "1")).1
      = pyUpper ((SpellCheckerHMM.decode_word
        (SpellCheckerHMM.train SpellCheckerHMM.empty [("a", "1")])
          "1").1)) := by
  decide

/-- C2 amended: for every model whose states are single characters (as all
trained models are) and every word consisting solely of cased (ASCII
alphabetic) characters, `decode_word` of the upper-cased word is the
upper-cased result, and `decode_word` of the capitalized word is the
capitalized result. -/
theorem claim_C2 (m : SpellCheckerHMM) (w : String)
    (hsing : ∀ s ∈ m.states, s.data.length = 1)
    (halpha : ∀ c ∈ w.data, isCased c = true) :
    (SpellCheckerHMM.decode_word m (pyUpper w)).1
      = pyUpper ((SpellCheckerHMM.decode_word m w).1) ∧
    (SpellCheckerHMM.decode_word m (pyCapitalize w)).1
      = pyCapitalize ((SpellCheckerHMM.decode_word m w).1) := by
  cases hw : w.data with
  | nil =>
    obtain ⟨ld⟩ := w
    have hld : ld = [] := hw
    subst hld
    have hdec : (SpellCheckerHMM.decode_word m (String.mk [])).1
        = String.mk [] := by
      unfold SpellCheckerHMM.decode_word
      rw [if_pos (by simp)]
    constructor
    · show (SpellCheckerHMM.decode_word m (String.mk [])).1 = _
      rw [hdec]
      rfl
    · show (SpellCheckerHMM.decode_word m (String.mk [])).1 = _
      rw [hdec]
      rfl
  | cons c0 rest =>
    by_cases hst : m.states.isEmpty = true
    · have hdec : ∀ v : String, (SpellCheckerHMM.decode_word m v).1 = v := by
        intro v
        unfold SpellCheckerHMM.decode_word
        rw [if_pos (by simp [hst])]
      rw [hdec, hdec, hdec]
      exact ⟨rfl, rfl⟩
    · have hstf : m.states.isEmpty = false := by
        revert hst
        cases m.states.isEmpty
        · intro _
          rfl
        · intro hst
          exact absurd rfl hst
      have hvw : w.data.isEmpty = false := by
        rw [hw]
        rfl
      have hvU : (pyUpper w).data.isEmpty = false := by
        show (w.data.map Char.toUpper).isEmpty = false
        rw [hw]
        rfl
      have hvC : (pyCapitalize w).data.isEmpty = false := by
        unfold pyCapitalize
        simp only [hw]
        rfl
      cases hobs : obsOf w with
      | nil =>
        exact absurd ((obsOf_eq_nil_iff w).mp hobs) (by rw [hw]; simp)
      | cons o0 orest =>
        have hobsU : obsOf (pyUpper w) = o0 :: orest := by
          rw [obsOf_pyUpper, hobs]
        have hobsC : obsOf (pyCapitalize w) = o0 :: orest := by
          rw [obsOf_pyCapitalize, hobs]
        rw [decode_word_main m (pyUpper w) o0 orest hvU hstf hobsU,
          decode_word_main m w o0 orest hvw hstf hobs,
          decode_word_main m (pyCapitalize w) o0 orest hvC hstf hobsC]
        cases hfp : (finalPick m.states (viterbiRun m o0 orest).1
            (viterbiRun m o0 orest).2.2).1 with
        | none =>
          simp only [hfp]
          exact ⟨trivial, trivial⟩
        | some s =>
          simp only [hfp]
          rw [pyUpper_restoreCase, pyCapitalize_restoreCase]
          constructor
          · unfold restoreCase
            rw [if_pos (pyIsUpper_pyUpper w (by rw [hw]; simp) halpha)]
          · cases rest with
            | nil =>
              unfold restoreCase
              rw [if_pos (pyIsUpper_pyCapitalize_len1 w c0 hw
                (halpha c0 (by rw [hw]; exact List.mem_cons_self c0 [])))]
              apply pyUpper_eq_pyCapitalize_of_len1
              have hdl := decoded_length m o0 orest s hsing hfp
              have holen := obsOf_length w
              rw [hobs, hw] at holen
              simp only [List.length_cons, List.length_nil] at holen
              rw [hdl]
              omega
            | cons c1 rest2 =>
              unfold restoreCase
              have hcf := pyIsUpper_pyCapitalize_false w c0 c1 rest2 hw
                (halpha c1 (by
                  rw [hw]
                  exact List.mem_cons_of_mem c0
                    (List.mem_cons_self c1 rest2)))
              have hff := firstIsUpper_pyCapitalize w c0 (c1 :: rest2) hw
                (halpha c0 (by rw [hw]; exact List.mem_cons_self c0 _))
              rw [if_neg (by simp [hcf]), if_pos hff]

/-- C2 witness: on the model trained on `[("ab", "ab")]` and the all-letter
word `"ab"`, both case-preservation laws hold. -/
theorem claim_C2_witness :
    ((∀ s ∈ (SpellCheckerHMM.train SpellCheckerHMM.empty
        [("ab", "ab")]).states, s.data.length = 1) ∧
     (∀ c ∈ ("ab" : String).data, isCased c = true)) ∧
    (SpellCheckerHMM.decode_word (SpellCheckerHMM.train SpellCheckerHMM.empty
        [("ab", "ab")]) (pyUpper "ab")).1
      = pyUpper ((SpellCheckerHMM.decode_word
        (SpellCheckerHMM.train SpellCheckerHMM.empty [("ab", "ab")])
          "ab").1) ∧
    (SpellCheckerHMM.decode_word (SpellCheckerHMM.train SpellCheckerHMM.empty
        [("ab", "ab")]) (pyCapitalize "ab")).1
      = pyCapitalize ((SpellCheckerHMM.decode_word
        (SpellCheckerHMM.train SpellCheckerHMM.empty [("ab", "ab")])
          "ab").1) :=
  ⟨⟨by decide, by decide⟩,
   (claim_C2 (SpellCheckerHMM.train SpellCheckerHMM.empty [("ab", "ab")])
     "ab" (by decide) (by decide)).1,
   (claim_C2 (SpellCheckerHMM.train SpellCheckerHMM.empty [("ab", "ab")])
     "ab" (by decide) (by decide)).2⟩
